import Mathlib

/-!
# mkt-nomad-dns: reconciliation of a DNS zone with a service directory

A shallow embedding of `routeros/client.go` (the zone client and `ReconcileDNS`)
and of `nomad/nomad.go` (`ListServices`), followed by theorems about them.

Conventions of the embedding

* A Go `error` is `GoError := Option String`; `none` is `nil`.
* A Go `map[string]V` is `GoMap V := String → Option V`; a missing key is `none`.
  `range` over the desired-state map is modelled by handing the map over as the list
  of its entries in the order the iteration visits them (any order is possible, so the
  theorems quantify over every list).
* The set `seen` (`map[string]struct{}`) is the list of the identifiers put into it.
* The zone store (the RouterOS REST endpoint) is not part of the repository.  It is an
  environment: `World` holds the records of the zone in listing order, the rule by which
  the store picks the identifier of a new record, and a list of faults the transport or
  the store will show on the next requests.  `World.log` records every call the client
  makes, with what the call returned; it is only used to state properties.
-/

/-- Go `error`: `none` is `nil`, `some msg` an error value. -/
abbrev GoError := Option String

/-- Go `map[string]V`. -/
abbrev GoMap (V : Type) := String → Option V

/-- The result of `make(map[string]V)`. -/
def GoMap.empty {V : Type} : GoMap V := fun _ => none

/-- The assignment `m[k] = v`. -/
def GoMap.insert {V : Type} (m : GoMap V) (k : String) (v : V) : GoMap V :=
  fun x => if x = k then some v else m x

/-- The statement `delete(m, k)`. -/
def GoMap.erase {V : Type} (m : GoMap V) (k : String) : GoMap V :=
  fun x => if x = k then none else m x

namespace routeros

/-- What a Go function call comes to: it returns a value, or the goroutine panics. -/
inductive Outcome (α : Type) where
  | ret (a : α)
  | panic
deriving DecidableEq, Repr

/-- The type `DNSRecord` of `routeros/client.go`: the five string fields. -/
structure DNSRecord where
  ID : String
  Address : String
  Name : String
  /-- the field `Type` of the source (`Type` is reserved in Lean) -/
  Typ : String
  Comment : String
deriving DecidableEq, Repr

/-- The type `Client` of `routeros/client.go` (the `*http.Client` is the `World`). -/
structure Client where
  username : String
  password : String
  address : String
  domain : String
deriving DecidableEq, Repr

/-- The three requests the client sends to `/rest/ip/dns/static`. -/
inductive Request where
  /-- the request `GET /rest/ip/dns/static?key=value` -/
  | list (key value : String)
  /-- the request `PUT /rest/ip/dns/static` with the record as JSON body -/
  | create (rrdata : DNSRecord)
  /-- the request `DELETE /rest/ip/dns/static/<id>` -/
  | remove (id : String)
deriving DecidableEq, Repr

/-- The content of a response body, as far as `encoding/json` can tell. -/
inductive Body where
  /-- nothing at all -/
  | none
  /-- a JSON array of record objects -/
  | array (rs : List DNSRecord)
  /-- one JSON record object; a field that is the empty string is absent (`omitempty`) -/
  | object (r : DNSRecord)
  /-- bytes that are not JSON -/
  | garbage
deriving DecidableEq, Repr

/-- The part of `http.Response` the client reads. -/
structure Response where
  StatusCode : Nat
  Body : Body
deriving DecidableEq, Repr

/-- The pair `(resp, err)` returned by `http.Client.Do`: an error with a `nil`
response; a response with a `nil` error; or, when the redirect policy fails (by default
after ten redirects), the last response, its body closed, together with an error. -/
inductive DoResult where
  | error (msg : String)
  | response (resp : Response)
  | both (resp : Response) (msg : String)
deriving DecidableEq, Repr

/-- A call of the client as the log records it: the arguments and what came back. -/
inductive Call where
  | GetRecord (key value : String) (rrset : List DNSRecord) (err : GoError)
  | PutRecord (rrdata : DNSRecord) (err : GoError)
  | DelRecord (rrdata : DNSRecord) (res : Outcome GoError)
deriving DecidableEq, Repr

/-- What can go wrong with one request. -/
inductive Fault where
  /-- the request is served -/
  | none
  /-- the transport fails (refused connection, timeout): no response -/
  | transport (msg : String)
  /-- the store refuses the request with this status and an empty body -/
  | status (code : Nat)
  /-- the store serves the request but the body that arrives is not JSON -/
  | garbled
  /-- the store answers with redirects until the redirect policy of the client gives
  up: `Do` returns the last response, of this status, and an error -/
  | redirect (code : Nat) (msg : String)
deriving DecidableEq, Repr

/-- The zone store and the transport to it. -/
structure World where
  /-- the records of the zone, in the order the store lists them -/
  zone : List DNSRecord
  /-- the identifier the store gives to a record created in the given zone -/
  alloc : List DNSRecord → String
  /-- the faults of the coming requests, one per request; none once the list is used up -/
  plan : List Fault
  /-- the calls made so far, oldest first -/
  log : List Call

/-- A world with nothing logged yet. -/
def World.init (zone : List DNSRecord) (alloc : List DNSRecord → String)
    (plan : List Fault) : World :=
  { zone := zone, alloc := alloc, plan := plan, log := [] }

/-- The field of a record a query key names (the JSON names of `DNSRecord`). -/
def field (key : String) (r : DNSRecord) : String :=
  if key = ".id" then r.ID
  else if key = "address" then r.Address
  else if key = "name" then r.Name
  else if key = "type" then r.Typ
  else if key = "comment" then r.Comment
  else ""

/-- The store serving a request: listing is by exact match of the field, creation
appends the record under a new identifier and answers `201 Created` with the record,
removal drops the record with the identifier and answers `200 OK`. -/
def serve (w : World) : Request → World × Response
  | .list key value =>
    (w, { StatusCode := 200, Body := .array (w.zone.filter (fun r => field key r = value)) })
  | .create rrdata =>
    let r : DNSRecord := { rrdata with ID := w.alloc w.zone }
    ({ w with zone := w.zone ++ [r] }, { StatusCode := 201, Body := .object r })
  | .remove id =>
    ({ w with zone := w.zone.filter (fun r => r.ID ≠ id) }, { StatusCode := 200, Body := .none })

/-- The call `c.cl.Do(req)`: the next fault of the plan decides what happens to the request. -/
def Do (w : World) (req : Request) : World × DoResult :=
  match w.plan with
  | [] => ((serve w req).1, .response (serve w req).2)
  | f :: plan =>
    let w1 : World := { w with plan := plan }
    match f with
    | .none => ((serve w1 req).1, .response (serve w1 req).2)
    | .transport msg => (w1, .error msg)
    | .status code => (w1, .response { StatusCode := code, Body := .none })
    | .garbled => ((serve w1 req).1, .response { (serve w1 req).2 with Body := .garbage })
    | .redirect code msg => (w1, .both { StatusCode := code, Body := .none } msg)

/-- The call `json.NewDecoder(body).Decode(&rrset)` for `rrset []DNSRecord`. -/
def decodeRecords : Body → Except String (List DNSRecord)
  | .array rs => .ok rs
  | .none => .error "EOF"
  | .object _ => .error "json: cannot unmarshal object into Go value of type []routeros.DNSRecord"
  | .garbage => .error "invalid character"

/-- The call `json.NewDecoder(body).Decode(&rrdata)` for `rrdata DNSRecord`: the fields the
object carries overwrite those of `rrdata`, the others stay. -/
def decodeInto (rrdata : DNSRecord) : Body → Except String DNSRecord
  | .object r => .ok
      { ID := if r.ID = "" then rrdata.ID else r.ID
        Address := if r.Address = "" then rrdata.Address else r.Address
        Name := if r.Name = "" then rrdata.Name else r.Name
        Typ := if r.Typ = "" then rrdata.Typ else r.Typ
        Comment := if r.Comment = "" then rrdata.Comment else r.Comment }
  | .none => .error "EOF"
  | .array _ => .error "json: cannot unmarshal array into Go value of type routeros.DNSRecord"
  | .garbage => .error "invalid character"

/-- Add a call to the log. -/
def World.record (w : World) (c : Call) : World := { w with log := w.log ++ [c] }

/-- The result of `GetRecord` before it is logged (client.go 86-112). -/
def getRecord (key value : String) (w : World) : World × List DNSRecord × GoError :=
  match Do w (.list key value) with
  | (w1, .error msg) => (w1, [], some msg)
  | (w1, .both _ msg) => (w1, [], some msg)
  | (w1, .response resp) =>
    if resp.StatusCode ≠ 200 then (w1, [], none)
    else
      match decodeRecords resp.Body with
      | .error e => (w1, [], some e)
      | .ok rrset => (w1, rrset, none)

/-- The method `GetRecord` (client.go 86-112): `nil, err` when `Do` fails or the status is not
`200 OK` (then `err` is `nil`), `nil, err` when the body does not decode, else the
decoded records. -/
def GetRecord (_c : Client) (key value : String) (w : World) : World × List DNSRecord × GoError :=
  let r := getRecord key value w
  (r.1.record (.GetRecord key value r.2.1 r.2.2), r.2.1, r.2.2)

/-- The result of `PutRecord` before it is logged (client.go 115-151). -/
def putRecord (rrdata : DNSRecord) (w : World) : World × DNSRecord × GoError :=
  match Do w (.create rrdata) with
  | (w1, .error _) => (w1, ⟨"", "", "", "", ""⟩, some ("Error creating record " ++ rrdata.Name))
  | (w1, .both _ _) => (w1, ⟨"", "", "", "", ""⟩, some ("Error creating record " ++ rrdata.Name))
  | (w1, .response resp) =>
    if resp.StatusCode ≠ 201 then
      (w1, ⟨"", "", "", "", ""⟩, some ("Error creating record " ++ rrdata.Name))
    else
      match decodeInto rrdata resp.Body with
      | .error e => (w1, ⟨"", "", "", "", ""⟩, some e)
      | .ok r => (w1, r, none)

/-- The method `PutRecord` (client.go 115-151): an error naming the record when `Do` fails or the
status is not `201 Created`, else the record with the body decoded into it. -/
def PutRecord (_c : Client) (rrdata : DNSRecord) (w : World) : World × DNSRecord × GoError :=
  let r := putRecord rrdata w
  (r.1.record (.PutRecord rrdata r.2.2), r.2.1, r.2.2)

/-- The result of `DelRecord` before it is logged (client.go 154-171). -/
def delRecord (rrdata : DNSRecord) (w : World) : World × Outcome GoError :=
  match Do w (.remove rrdata.ID) with
  -- `defer resp.Body.Close()` reads `resp.Body` of a nil `resp` before `err` is looked at
  | (w1, .error _) => (w1, .panic)
  -- a response and an error: the `defer` is harmless and `err != nil` holds, `return err`
  | (w1, .both _ msg) => (w1, .ret (some msg))
  | (w1, .response resp) =>
    -- `err` is nil here: `if err != nil || resp.StatusCode != http.StatusOK { return err }`
    if resp.StatusCode ≠ 200 then (w1, .ret none)
    else (w1, .ret none)

/-- The method `DelRecord` (client.go 154-171): a panic when `Do` gives no response,
since `defer resp.Body.Close()` reads the nil `resp`; else `err`, whatever the status:
nil when `Do` gave a response alone, the error when it gave a response and an error. -/
def DelRecord (_c : Client) (rrdata : DNSRecord) (w : World) : World × Outcome GoError :=
  let r := delRecord rrdata w
  (r.1.record (.DelRecord rrdata r.2), r.2)

/-- The fully-qualified name `name + "." + c.domain`. -/
def Client.fqdn (c : Client) (name : String) : String := name ++ "." ++ c.domain

/-- The index `tmp` of client.go 181-184: address to record, a later record of the
listing replacing an earlier one with the same address. -/
def index (rrdatas : List DNSRecord) : GoMap DNSRecord :=
  rrdatas.foldl (fun tmp rec => tmp.insert rec.Address rec) GoMap.empty

/-- The loop over `addrs` of client.go 185-206.  Returns the world, `seen`, and the
error of the `PutRecord` that made `ReconcileDNS` return, if one did. -/
def addrLoop (c : Client) (tag name : String) :
    List String → GoMap DNSRecord → List String → World → World × List String × GoError
  | [], _, seen, w => (w, seen, none)
  | addr :: addrs, tmp, seen, w =>
    match tmp addr with
    | some rec => addrLoop c tag name addrs (tmp.erase addr) (rec.ID :: seen) w
    | none =>
      let r := PutRecord c
        { ID := "", Address := addr, Name := c.fqdn name, Typ := "", Comment := tag } w
      match r.2.2 with
      | some e => (r.1, seen, some e)
      | none => addrLoop c tag name addrs tmp (r.2.1.ID :: seen) r.1

/-- The loop over the desired state of client.go 179-207; `records` is the map as the
list of its entries in iteration order. -/
def nameLoop (c : Client) (tag : String) :
    List (String × List String) → List String → World → World × List String × GoError
  | [], seen, w => (w, seen, none)
  | (name, addrs) :: rest, seen, w =>
    let g := GetRecord c "name" (c.fqdn name) w
    let r := addrLoop c tag name addrs (index g.2.1) seen g.1
    match r.2.2 with
    | some e => (r.1, r.2.1, some e)
    | none => nameLoop c tag rest r.2.1 r.1

/-- The loop over `remaining` of client.go 211-218. -/
def pruneLoop (c : Client) : List DNSRecord → List String → World → World × Outcome GoError
  | [], _, w => (w, .ret none)
  | rec :: rest, seen, w =>
    if rec.ID ∈ seen then pruneLoop c rest seen w
    else
      let r := DelRecord c rec w
      match r.2 with
      | .panic => (r.1, .panic)
      | .ret (some e) => (r.1, .ret (some e))
      | .ret none => pruneLoop c rest seen r.1

/-- The method `ReconcileDNS` (client.go 176-221); the errors of both `GetRecord` calls
are discarded, as in `rrdatas, _ := c.GetRecord(...)`. -/
def ReconcileDNS (c : Client) (tag : String) (records : List (String × List String))
    (w : World) : World × Outcome GoError :=
  let r := nameLoop c tag records [] w
  match r.2.2 with
  | some e => (r.1, .ret (some e))
  | none =>
    let g := GetRecord c "comment" tag r.1
    pruneLoop c g.2.1 r.2.1 g.1

/-! ## Notions used to state and prove the properties -/

/-- An allocation rule that is fresh by construction: a run of stars longer than every
identifier in use. -/
def starAlloc (zone : List DNSRecord) : String :=
  ⟨List.replicate ((zone.map (fun r => r.ID.length)).foldr max 0 + 1) '*'⟩

/-- The allocation rule never hands out an identifier that is in use. -/
def Fresh (alloc : List DNSRecord → String) : Prop :=
  ∀ zone, alloc zone ∉ zone.map DNSRecord.ID

/-- The identifiers of the zone are pairwise distinct. -/
def UniqueIDs (zone : List DNSRecord) : Prop := (zone.map DNSRecord.ID).Nodup

/-- The record a served `PutRecord` leaves in the zone. -/
def stored (w : World) (rrdata : DNSRecord) : DNSRecord :=
  { rrdata with ID := w.alloc w.zone }

/-- No `PutRecord` of the trace returned an error. -/
def PutsOk (t : List Call) : Prop := ∀ rr e, Call.PutRecord rr e ∈ t → e = none

/-- A call of the loop over the desired state: a `PutRecord` of a desired pair under
the tag, or a `GetRecord` by name for a desired service. -/
def NameCall (c : Client) (tag : String) (records : List (String × List String))
    (call : Call) : Prop :=
  (∃ n as a e, (n, as) ∈ records ∧ a ∈ as ∧
      call = .PutRecord ⟨"", a, c.fqdn n, "", tag⟩ e) ∨
    (∃ n as rs e, (n, as) ∈ records ∧ call = .GetRecord "name" (c.fqdn n) rs e)

/-- The loop over `addrs` on the zone of a store that answers every call: the zone and
`seen` after it. -/
def addrServed (alloc : List DNSRecord → String) (tag fq : String) :
    List String → GoMap DNSRecord → List String → List DNSRecord → List DNSRecord × List String
  | [], _, seen, zone => (zone, seen)
  | addr :: addrs, tmp, seen, zone =>
    match tmp addr with
    | some rec => addrServed alloc tag fq addrs (tmp.erase addr) (rec.ID :: seen) zone
    | none =>
      addrServed alloc tag fq addrs tmp (alloc zone :: seen)
        (zone ++ [⟨alloc zone, addr, fq, "", tag⟩])

/-- The loop over the desired state on the zone of a store that answers every call. -/
def nameServed (c : Client) (alloc : List DNSRecord → String) (tag : String) :
    List (String × List String) → List String → List DNSRecord → List DNSRecord × List String
  | [], seen, zone => (zone, seen)
  | (name, addrs) :: rest, seen, zone =>
    let r := addrServed alloc tag (c.fqdn name) addrs
      (index (zone.filter (fun x => x.Name = c.fqdn name))) seen zone
    nameServed c alloc tag rest r.2 r.1

/-- Every record the index holds is in the zone, has the name `fq`, and sits under its
own address. -/
def TmpIn (tmp : GoMap DNSRecord) (zone : List DNSRecord) (fq : String) : Prop :=
  ∀ a rec, tmp a = some rec → rec ∈ zone ∧ rec.Name = fq ∧ rec.Address = a

/-- The record has a name and an address of the desired state. -/
def Desired (c : Client) (records : List (String × List String)) (x : DNSRecord) : Prop :=
  ∃ n as, (n, as) ∈ records ∧ x.Name = c.fqdn n ∧ x.Address ∈ as

/-- The record is the last one of the zone with its name and address. -/
def LastListed (zone : List DNSRecord) (r : DNSRecord) : Prop :=
  (zone.filter (fun x => x.Name = r.Name ∧ x.Address = r.Address)).getLast? = some r

instance (zone : List DNSRecord) (r : DNSRecord) : Decidable (LastListed zone r) := by
  unfold LastListed; infer_instance

/-- The records of the zone with name `N` and address `a` whose identifier is in `seen`. -/
def marked (N a : String) (seen : List String) (zone : List DNSRecord) : List DNSRecord :=
  zone.filter (fun x => x.Name = N ∧ x.Address = a ∧ x.ID ∈ seen)

/-- The name and address pairs of the desired state, as `ReconcileDNS` names them. -/
def desiredPairs (c : Client) (records : List (String × List String)) : List (String × String) :=
  records.flatMap (fun e => e.2.map (fun a => (c.fqdn e.1, a)))

/-- Every record the index holds is in the zone, has the name `fq`, sits under its own
address and is the last one listed with that name and address. -/
def TmpLast (tmp : GoMap DNSRecord) (zone : List DNSRecord) (fq : String) : Prop :=
  ∀ a rec, tmp a = some rec →
    rec ∈ zone ∧ rec.Name = fq ∧ rec.Address = a ∧ LastListed zone rec

/-- Every record of the zone whose identifier is in `seen` is the last one listed with
its name and address. -/
def SeenLast (zone : List DNSRecord) (seen : List String) : Prop :=
  ∀ x ∈ zone, x.ID ∈ seen → LastListed zone x

/-! ## Concrete worlds used to run the code -/

/-- A client for the domain `lan`. -/
def lan : Client := ⟨"admin", "secret", "192.0.2.1", "lan"⟩

/-- A record for `web.lan` at `10.0.0.1` with the tag `t`. -/
def webA : DNSRecord := ⟨"*1", "10.0.0.1", "web.lan", "", "t"⟩

/-- A second record for `web.lan` at `10.0.0.1` with the tag `t`. -/
def webB : DNSRecord := ⟨"*2", "10.0.0.1", "web.lan", "", "t"⟩

/-- A record for `api.lan` at `10.0.0.2` with the tag `t`. -/
def apiA : DNSRecord := ⟨"*3", "10.0.0.2", "api.lan", "", "t"⟩

/-- A record for `web.lan` at `10.0.0.1` that carries another comment. -/
def webForeign : DNSRecord := ⟨"*4", "10.0.0.1", "web.lan", "", "other"⟩

/-- A record for another name that carries another comment. -/
def mailForeign : DNSRecord := ⟨"*5", "10.0.0.9", "mail.lan", "", "other"⟩

/-- The desired state with the service `web` at `10.0.0.1`. -/
def webOnce : List (String × List String) := [("web", ["10.0.0.1"])]

/-- The desired state with the service `web` at `10.0.0.1` listed twice: two instances
of the service on one host. -/
def webTwice : List (String × List String) := [("web", ["10.0.0.1", "10.0.0.1"])]

/-- The record `PutRecord` is handed for `web` at `10.0.0.1`. -/
def webPut : DNSRecord := ⟨"", "10.0.0.1", "web.lan", "", "t"⟩

instance (zone : List DNSRecord) : Decidable (UniqueIDs zone) := by
  unfold UniqueIDs; infer_instance

instance (c : Client) (records : List (String × List String)) (x : DNSRecord) :
    Decidable (Desired c records x) :=
  decidable_of_iff (∃ e ∈ records, x.Name = c.fqdn e.1 ∧ x.Address ∈ e.2) (by
    unfold Desired
    constructor
    · rintro ⟨⟨n, as⟩, h1, h2⟩
      exact ⟨n, as, h1, h2⟩
    · rintro ⟨n, as, h1, h2⟩
      exact ⟨(n, as), h1, h2⟩)

end routeros

namespace nomad

/-- The part of `api.Namespace` that `ListServices` reads. -/
structure Namespace where
  Name : String
deriving DecidableEq, Repr

/-- The part of `api.ServiceRegistrationStub` that `ListServices` reads. -/
structure ServiceRegistrationStub where
  ServiceName : String
  Tags : List String
deriving DecidableEq, Repr

/-- The part of `api.ServiceRegistrationListStub` that `ListServices` reads. -/
structure ServiceRegistrationListStub where
  Namespace : String
  Services : List ServiceRegistrationStub
deriving DecidableEq, Repr

/-- The part of `api.ServiceRegistration` that `ListServices` reads. -/
structure ServiceRegistration where
  Address : String
deriving DecidableEq, Repr

/-- The three queries of the Nomad API that `ListServices` makes, each answering
with a result or an error: `Namespaces().List`, `Services().List` for the namespace
of the options, `Services().Get` for a service name and the namespace of the options. -/
structure Client where
  NamespacesList : Except String (List Namespace)
  ServicesList : String → Except String (List ServiceRegistrationListStub)
  ServicesGet : String → String → Except String (List ServiceRegistration)

/-- The flag `filtered` of nomad.go 40-45 after the loop over the tags of the stub. -/
def filtered (tag : String) (tags : List String) : Bool :=
  tags.foldl (fun f t => if t = tag then false else f) (tag.length != 0)

/-- The loop over the instances of nomad.go 54-56:
`out[name] = append(out[name], instance.Address)`. -/
def instanceLoop (name : String) :
    List ServiceRegistration → GoMap (List String) → GoMap (List String)
  | [], out => out
  | inst :: rest, out =>
    instanceLoop name rest (out.insert name ((out name).getD [] ++ [inst.Address]))

/-- The loop over the service stubs of one list stub, nomad.go 38-57; `ns` is
the namespace of `opts`. -/
def stubLoop (c : Client) (tag ns : String) :
    List ServiceRegistrationStub → GoMap (List String) → Except String (GoMap (List String))
  | [], out => .ok out
  | svcStub :: rest, out =>
    if filtered tag svcStub.Tags then stubLoop c tag ns rest out
    else
      match c.ServicesGet svcStub.ServiceName ns with
      | .error err => .error err
      | .ok res => stubLoop c tag ns rest (instanceLoop svcStub.ServiceName res out)

/-- The loop over the list stubs of one namespace, nomad.go 37-58. -/
def listStubLoop (c : Client) (tag ns : String) :
    List ServiceRegistrationListStub → GoMap (List String) →
      Except String (GoMap (List String))
  | [], out => .ok out
  | namespace_ :: rest, out =>
    match stubLoop c tag ns namespace_.Services out with
    | .error err => .error err
    | .ok out1 => listStubLoop c tag ns rest out1

/-- The loop over the namespaces of nomad.go 30-59. -/
def namespaceLoop (c : Client) (tag : String) :
    List Namespace → GoMap (List String) → Except String (GoMap (List String))
  | [], out => .ok out
  | ns :: rest, out =>
    match c.ServicesList ns.Name with
    | .error err => .error err
    | .ok svcs =>
      match listStubLoop c tag ns.Name svcs out with
      | .error err => .error err
      | .ok out1 => namespaceLoop c tag rest out1

/-- The method `ListServices` (nomad.go 24-61). -/
def ListServices (c : Client) (tag : String) : Except String (GoMap (List String)) :=
  match c.NamespacesList with
  | .error err => .error err
  | .ok res => namespaceLoop c tag res GoMap.empty

/-- The spec's rule of inclusion: the tag is empty or is one of the tags of the stub. -/
def included (tag : String) (svcStub : ServiceRegistrationStub) : Prop :=
  tag = "" ∨ tag ∈ svcStub.Tags

instance (tag : String) (svcStub : ServiceRegistrationStub) : Decidable (included tag svcStub) := by
  unfold included; infer_instance

/-- The spec's accumulation: the addresses listed under the name `s`, the
concatenation, in enumeration order over the namespaces, their list stubs and the
service stubs of these, of the instance addresses of every included stub named `s`.
`svcs` gives the list stubs of a namespace and `insts` the instances of a service
of a namespace. -/
def accumulated (tag : String) (nss : List Namespace)
    (svcs : String → List ServiceRegistrationListStub)
    (insts : String → String → List ServiceRegistration) (s : String) : List String :=
  nss.flatMap (fun ns =>
    (svcs ns.Name).flatMap (fun l =>
      l.Services.flatMap (fun svcStub =>
        if included tag svcStub ∧ svcStub.ServiceName = s then
          (insts svcStub.ServiceName ns.Name).map (fun i => i.Address)
        else [])))

/-! ## A concrete directory used to run the code -/

/-- Two namespaces. -/
def demoNamespaces : List Namespace := [⟨"default"⟩, ⟨"prod"⟩]

/-- The service stubs of the two namespaces: `web` with the tag `dns` in both, `db`
without it in `default`. -/
def demoServices (ns : String) : List ServiceRegistrationListStub :=
  if ns = "default" then [⟨"default", [⟨"web", ["dns", "http"]⟩, ⟨"db", ["sql"]⟩]⟩]
  else if ns = "prod" then [⟨"prod", [⟨"web", ["dns"]⟩]⟩]
  else []

/-- The instances: one of `web` in `default`, two of `web` in `prod`, one of `db`. -/
def demoInstances (name ns : String) : List ServiceRegistration :=
  if name = "web" ∧ ns = "default" then [⟨"10.0.0.1"⟩]
  else if name = "web" ∧ ns = "prod" then [⟨"10.0.1.1"⟩, ⟨"10.0.1.2"⟩]
  else if name = "db" then [⟨"10.0.0.5"⟩]
  else []

/-- A directory in which every query succeeds. -/
def demo : Client :=
  { NamespacesList := .ok demoNamespaces
    ServicesList := fun ns => .ok (demoServices ns)
    ServicesGet := fun name ns => .ok (demoInstances name ns) }

end nomad

namespace routeros

/-! ## The three operations, whatever the store does -/

theorem GetRecord_spec (c : Client) (key value : String) (w : World) :
    (GetRecord c key value w).1.zone = w.zone ∧
    (GetRecord c key value w).1.alloc = w.alloc ∧
    (GetRecord c key value w).1.log =
      w.log ++ [.GetRecord key value (GetRecord c key value w).2.1 (GetRecord c key value w).2.2] ∧
    ((GetRecord c key value w).2.1 = [] ∨
      ((GetRecord c key value w).2.1 = w.zone.filter (fun r => field key r = value) ∧
        (GetRecord c key value w).2.2 = none)) := by
  unfold GetRecord getRecord Do
  rcases hp : w.plan with _ | ⟨f, plan⟩
  · simp [serve, World.record, decodeRecords]
  · cases f <;> simp [serve, World.record, decodeRecords]
    split <;> simp [decodeRecords]

theorem PutRecord_spec (c : Client) (rrdata : DNSRecord) (w : World) :
    (PutRecord c rrdata w).1.alloc = w.alloc ∧
    (PutRecord c rrdata w).1.log = w.log ++ [.PutRecord rrdata (PutRecord c rrdata w).2.2] ∧
    (((PutRecord c rrdata w).1.zone = w.zone ∧ (PutRecord c rrdata w).2.2 ≠ none) ∨
      ((PutRecord c rrdata w).1.zone = w.zone ++ [stored w rrdata] ∧
        ((PutRecord c rrdata w).2.2 ≠ none ∨
          ((PutRecord c rrdata w).2.2 = none ∧
            (PutRecord c rrdata w).2.1.ID = (if w.alloc w.zone = "" then rrdata.ID
              else w.alloc w.zone))))) := by
  unfold PutRecord putRecord Do stored
  rcases hp : w.plan with _ | ⟨f, plan⟩
  · simp [serve, World.record, decodeInto]
  · cases f <;> simp [serve, World.record, decodeInto]
    split <;> simp [decodeInto]

theorem DelRecord_spec (c : Client) (rrdata : DNSRecord) (w : World) :
    (DelRecord c rrdata w).1.alloc = w.alloc ∧
    (DelRecord c rrdata w).1.log = w.log ++ [.DelRecord rrdata (DelRecord c rrdata w).2] ∧
    ((DelRecord c rrdata w).1.zone = w.zone ∨
      (DelRecord c rrdata w).1.zone = w.zone.filter (fun r => r.ID ≠ rrdata.ID)) ∧
    ((DelRecord c rrdata w).2 = .panic ∨ (DelRecord c rrdata w).2 = .ret none ∨
      ∃ e, (DelRecord c rrdata w).2 = .ret (some e)) := by
  unfold DelRecord delRecord Do
  rcases hp : w.plan with _ | ⟨f, plan⟩
  · simp [serve, World.record]
  · cases f <;> simp [serve, World.record]

/-! ## The three operations against a store that answers every call -/

theorem GetRecord_served (c : Client) (key value : String) (w : World) (h : w.plan = []) :
    (GetRecord c key value w).1.plan = [] ∧
    (GetRecord c key value w).1.zone = w.zone ∧
    (GetRecord c key value w).1.alloc = w.alloc ∧
    (GetRecord c key value w).2.1 = w.zone.filter (fun r => field key r = value) := by
  unfold GetRecord getRecord Do
  simp [h, serve, World.record, decodeRecords]

theorem PutRecord_served (c : Client) (rrdata : DNSRecord) (w : World) (h : w.plan = [])
    (hid : rrdata.ID = "") :
    (PutRecord c rrdata w).1.plan = [] ∧
    (PutRecord c rrdata w).1.zone = w.zone ++ [stored w rrdata] ∧
    (PutRecord c rrdata w).1.alloc = w.alloc ∧
    (PutRecord c rrdata w).2.1.ID = w.alloc w.zone ∧
    (PutRecord c rrdata w).2.2 = none := by
  unfold PutRecord putRecord Do stored
  simp [h, serve, World.record, decodeInto, hid]
  intro h'; exact h'.symm

theorem DelRecord_served (c : Client) (rrdata : DNSRecord) (w : World) (h : w.plan = []) :
    (DelRecord c rrdata w).1.plan = [] ∧
    (DelRecord c rrdata w).1.zone = w.zone.filter (fun r => r.ID ≠ rrdata.ID) ∧
    (DelRecord c rrdata w).1.alloc = w.alloc ∧
    (DelRecord c rrdata w).2 = .ret none := by
  unfold DelRecord delRecord Do
  simp [h, serve, World.record]

/-! ## The calls a pass makes -/

theorem PutsOk_nil : PutsOk [] := by
  intro rr e h; simp at h

theorem PutsOk_append {t u : List Call} (ht : PutsOk t) (hu : PutsOk u) : PutsOk (t ++ u) := by
  intro rr e h
  rcases List.mem_append.1 h with h | h
  · exact ht rr e h
  · exact hu rr e h

/-- The calls of the loop over `addrs`: only `PutRecord`, each for a record
`{Name: name+"."+domain, Address: addr, Comment: tag}` with `addr` one of `addrs`; the
loop stops at the first one that returns an error, and returns that error. -/
theorem addrLoop_log (c : Client) (tag name : String) (addrs : List String) :
    ∀ (tmp : GoMap DNSRecord) (seen : List String) (w : World),
      (addrLoop c tag name addrs tmp seen w).1.alloc = w.alloc ∧
      ∃ t, (addrLoop c tag name addrs tmp seen w).1.log = w.log ++ t ∧
        (∀ call ∈ t, ∃ a e, a ∈ addrs ∧
          call = .PutRecord ⟨"", a, c.fqdn name, "", tag⟩ e) ∧
        (((addrLoop c tag name addrs tmp seen w).2.2 = none ∧ PutsOk t) ∨
          ∃ t1 rr e, (addrLoop c tag name addrs tmp seen w).2.2 = some e ∧
            t = t1 ++ [.PutRecord rr (some e)] ∧ PutsOk t1) := by
  induction addrs with
  | nil =>
    intro tmp seen w
    exact ⟨rfl, [], by simp [addrLoop], by simp, Or.inl ⟨rfl, PutsOk_nil⟩⟩
  | cons addr addrs ih =>
    intro tmp seen w
    simp only [addrLoop]
    cases htmp : tmp addr with
    | some rec =>
      simp only []
      obtain ⟨ha, t, hlog, hall, herr⟩ := ih (tmp.erase addr) (rec.ID :: seen) w
      refine ⟨ha, t, hlog, ?_, herr⟩
      intro call hc
      obtain ⟨a, e, hmem, heq⟩ := hall call hc
      exact ⟨a, e, List.mem_cons_of_mem _ hmem, heq⟩
    | none =>
      simp only []
      obtain ⟨hpa, hplog, -⟩ := PutRecord_spec c ⟨"", addr, c.fqdn name, "", tag⟩ w
      cases hput : (PutRecord c ⟨"", addr, c.fqdn name, "", tag⟩ w).2.2 with
      | some e =>
        simp only []
        refine ⟨hpa, [.PutRecord ⟨"", addr, c.fqdn name, "", tag⟩ (some e)], ?_, ?_, ?_⟩
        · rw [hplog, hput]
        · intro call hc
          simp only [List.mem_singleton] at hc
          exact ⟨addr, some e, List.mem_cons_self _ _, hc⟩
        · exact Or.inr ⟨[], _, e, rfl, rfl, PutsOk_nil⟩
      | none =>
        simp only []
        obtain ⟨ha, t, hlog, hall, herr⟩ := ih tmp
          ((PutRecord c ⟨"", addr, c.fqdn name, "", tag⟩ w).2.1.ID :: seen)
          (PutRecord c ⟨"", addr, c.fqdn name, "", tag⟩ w).1
        have hone : PutsOk [Call.PutRecord ⟨"", addr, c.fqdn name, "", tag⟩ none] := by
          intro rr e h
          simp only [List.mem_singleton, Call.PutRecord.injEq] at h
          exact h.2
        refine ⟨ha.trans hpa, .PutRecord ⟨"", addr, c.fqdn name, "", tag⟩ none :: t, ?_, ?_, ?_⟩
        · rw [hlog, hplog, hput]; simp
        · intro call hc
          rcases List.mem_cons.1 hc with hc | hc
          · exact ⟨addr, none, List.mem_cons_self _ _, hc⟩
          · obtain ⟨a, e, hmem, heq⟩ := hall call hc
            exact ⟨a, e, List.mem_cons_of_mem _ hmem, heq⟩
        · rcases herr with ⟨h1, h2⟩ | ⟨t1, rr, e, h1, h2, h3⟩
          · exact Or.inl ⟨h1, PutsOk_append hone h2⟩
          · refine Or.inr ⟨.PutRecord ⟨"", addr, c.fqdn name, "", tag⟩ none :: t1, rr, e, h1, ?_, ?_⟩
            · rw [h2]; simp
            · exact PutsOk_append hone h3

theorem NameCall_mono (c : Client) (tag : String) (x : String × List String)
    (records : List (String × List String)) (call : Call)
    (h : NameCall c tag records call) : NameCall c tag (x :: records) call := by
  rcases h with ⟨n, as, a, e, h1, h2, h3⟩ | ⟨n, as, rs, e, h1, h2⟩
  · exact Or.inl ⟨n, as, a, e, List.mem_cons_of_mem _ h1, h2, h3⟩
  · exact Or.inr ⟨n, as, rs, e, List.mem_cons_of_mem _ h1, h2⟩

/-- The calls of the loop over the desired state; it stops at the first `PutRecord`
that returns an error and returns that error. -/
theorem nameLoop_log (c : Client) (tag : String) (records : List (String × List String)) :
    ∀ (seen : List String) (w : World),
      (nameLoop c tag records seen w).1.alloc = w.alloc ∧
      ∃ t, (nameLoop c tag records seen w).1.log = w.log ++ t ∧
        (∀ call ∈ t, NameCall c tag records call) ∧
        (((nameLoop c tag records seen w).2.2 = none ∧ PutsOk t) ∨
          ∃ t1 rr e, (nameLoop c tag records seen w).2.2 = some e ∧
            t = t1 ++ [.PutRecord rr (some e)] ∧ PutsOk t1) := by
  induction records with
  | nil =>
    intro seen w
    exact ⟨rfl, [], by simp [nameLoop], by simp, Or.inl ⟨rfl, PutsOk_nil⟩⟩
  | cons x rest ih =>
    obtain ⟨name, addrs⟩ := x
    intro seen w
    simp only [nameLoop]
    obtain ⟨-, hga, hglog, -⟩ := GetRecord_spec c "name" (c.fqdn name) w
    generalize hg : GetRecord c "name" (c.fqdn name) w = g at hga hglog
    obtain ⟨haa, ta, halog, haall, haerr⟩ := addrLoop_log c tag name addrs (index g.2.1) seen g.1
    generalize hr : addrLoop c tag name addrs (index g.2.1) seen g.1 = r at haa halog haerr
    have hget : PutsOk [Call.GetRecord "name" (c.fqdn name) g.2.1 g.2.2] := by
      intro rr e h; simp at h
    have hcalls : ∀ call ∈ Call.GetRecord "name" (c.fqdn name) g.2.1 g.2.2 :: ta,
        NameCall c tag ((name, addrs) :: rest) call := by
      intro call hc
      rcases List.mem_cons.1 hc with hc | hc
      · exact Or.inr ⟨name, addrs, _, _, List.mem_cons_self _ _, hc⟩
      · obtain ⟨a, e, h1, h2⟩ := haall call hc
        exact Or.inl ⟨name, addrs, a, e, List.mem_cons_self _ _, h1, h2⟩
    rcases haerr with ⟨h1, h2⟩ | ⟨t1, rr, e, h1, h2, h3⟩
    · rw [h1]
      simp only []
      obtain ⟨hna, tn, hnlog, hnall, hnerr⟩ := ih r.2.1 r.1
      refine ⟨hna.trans (haa.trans hga), Call.GetRecord "name" (c.fqdn name) g.2.1 g.2.2 :: ta ++ tn,
        ?_, ?_, ?_⟩
      · rw [hnlog, halog, hglog]; simp
      · intro call hc
        rcases List.mem_append.1 hc with hc | hc
        · exact hcalls call hc
        · exact NameCall_mono c tag _ _ _ (hnall call hc)
      · have hpre : PutsOk (Call.GetRecord "name" (c.fqdn name) g.2.1 g.2.2 :: ta) :=
          PutsOk_append hget h2
        rcases hnerr with ⟨k1, k2⟩ | ⟨u1, rr, e, k1, k2, k3⟩
        · exact Or.inl ⟨k1, PutsOk_append hpre k2⟩
        · refine Or.inr ⟨Call.GetRecord "name" (c.fqdn name) g.2.1 g.2.2 :: ta ++ u1, rr, e, k1,
            ?_, PutsOk_append hpre k3⟩
          rw [k2]; simp
    · rw [h1]
      simp only []
      refine ⟨haa.trans hga, Call.GetRecord "name" (c.fqdn name) g.2.1 g.2.2 :: ta, ?_, hcalls, ?_⟩
      · rw [halog, hglog]; simp
      · refine Or.inr ⟨Call.GetRecord "name" (c.fqdn name) g.2.1 g.2.2 :: t1, rr, e, rfl, ?_,
          PutsOk_append hget h3⟩
        rw [h2]; simp

/-- The calls of the loop over `remaining`: only `DelRecord`, each for a listed record
whose identifier is not in `seen`; when the loop returns an error, it is the error of the
`DelRecord` call that was its last call. -/
theorem pruneLoop_log (c : Client) (remaining : List DNSRecord) (seen : List String) :
    ∀ (w : World),
      (pruneLoop c remaining seen w).1.alloc = w.alloc ∧
      ((pruneLoop c remaining seen w).2 = .panic ∨ (pruneLoop c remaining seen w).2 = .ret none ∨
        ∃ e, (pruneLoop c remaining seen w).2 = .ret (some e)) ∧
      ∃ t, (pruneLoop c remaining seen w).1.log = w.log ++ t ∧
        (∀ call ∈ t, ∃ rec o, rec ∈ remaining ∧ rec.ID ∉ seen ∧ call = .DelRecord rec o) ∧
        (∀ e, (pruneLoop c remaining seen w).2 = .ret (some e) →
          ∃ t1 rec, t = t1 ++ [.DelRecord rec (.ret (some e))]) := by
  induction remaining with
  | nil =>
    intro w
    refine ⟨rfl, Or.inr (Or.inl rfl), [], by simp [pruneLoop], by simp, ?_⟩
    intro e he
    simp [pruneLoop] at he
  | cons rec rest ih =>
    intro w
    simp only [pruneLoop]
    by_cases hs : rec.ID ∈ seen
    · simp only [hs, if_true]
      obtain ⟨ha, ho, t, hlog, hall, hlast⟩ := ih w
      refine ⟨ha, ho, t, hlog, ?_, hlast⟩
      intro call hc
      obtain ⟨r, o, h1, h2, h3⟩ := hall call hc
      exact ⟨r, o, List.mem_cons_of_mem _ h1, h2, h3⟩
    · simp only [hs, if_false]
      obtain ⟨hda, hdlog, -, hdo⟩ := DelRecord_spec c rec w
      generalize hd : DelRecord c rec w = d at hda hdlog hdo
      have hone : ∀ call ∈ [Call.DelRecord rec d.2],
          ∃ r o, r ∈ rec :: rest ∧ r.ID ∉ seen ∧ call = .DelRecord r o := by
        intro call hc
        simp only [List.mem_singleton] at hc
        exact ⟨rec, d.2, List.mem_cons_self _ _, hs, hc⟩
      rcases hdo with hdo | hdo | ⟨e, hdo⟩
      · rw [hdo]
        simp only []
        refine ⟨hda, Or.inl trivial, [Call.DelRecord rec .panic], by rw [hdlog, hdo], ?_, ?_⟩
        · rw [← hdo]; exact hone
        · intro e he
          simp at he
      · rw [hdo]
        simp only []
        obtain ⟨ha, ho, t, hlog, hall, hlast⟩ := ih d.1
        refine ⟨ha.trans hda, ho, Call.DelRecord rec d.2 :: t, ?_, ?_, ?_⟩
        · rw [hlog, hdlog]; simp
        · intro call hc
          rcases List.mem_cons.1 hc with hc | hc
          · exact hone call (List.mem_singleton.2 hc)
          · obtain ⟨r, o, h1, h2, h3⟩ := hall call hc
            exact ⟨r, o, List.mem_cons_of_mem _ h1, h2, h3⟩
        · intro e he
          obtain ⟨t1, r1, h1⟩ := hlast e he
          exact ⟨Call.DelRecord rec d.2 :: t1, r1, by rw [h1]; rfl⟩
      · rw [hdo]
        simp only []
        refine ⟨hda, Or.inr (Or.inr ⟨e, rfl⟩), [Call.DelRecord rec (.ret (some e))],
          by rw [hdlog, hdo], ?_, ?_⟩
        · rw [← hdo]; exact hone
        · intro e1 he
          simp only [Outcome.ret.injEq, Option.some.injEq] at he
          exact ⟨[], rec, by rw [he]; rfl⟩

/-! ## The zone during a pass, whatever the store does -/

theorem UniqueIDs_stored (w : World) (rrdata : DNSRecord) (hf : Fresh w.alloc)
    (hu : UniqueIDs w.zone) : UniqueIDs (w.zone ++ [stored w rrdata]) := by
  unfold UniqueIDs at *
  rw [List.map_append, List.nodup_append]
  refine ⟨hu, by simp, ?_⟩
  intro a ha hb
  simp only [List.map_cons, List.map_nil, List.mem_singleton, stored] at hb
  exact hf w.zone (hb ▸ ha)

/-- The loop over `addrs` only appends records that carry the tag. -/
theorem addrLoop_zone (c : Client) (tag name : String) (addrs : List String) :
    ∀ (tmp : GoMap DNSRecord) (seen : List String) (w : World),
      ∃ created, (addrLoop c tag name addrs tmp seen w).1.zone = w.zone ++ created ∧
        (∀ x ∈ created, x.Comment = tag) ∧
        (Fresh w.alloc → UniqueIDs w.zone →
          UniqueIDs (addrLoop c tag name addrs tmp seen w).1.zone) := by
  induction addrs with
  | nil =>
    intro tmp seen w
    exact ⟨[], by simp [addrLoop], by simp, fun _ h => h⟩
  | cons addr addrs ih =>
    intro tmp seen w
    simp only [addrLoop]
    cases htmp : tmp addr with
    | some rec =>
      simp only []
      exact ih (tmp.erase addr) (rec.ID :: seen) w
    | none =>
      simp only []
      obtain ⟨hpa, -, hpz⟩ := PutRecord_spec c ⟨"", addr, c.fqdn name, "", tag⟩ w
      generalize hp : PutRecord c ⟨"", addr, c.fqdn name, "", tag⟩ w = p at hpa hpz
      have hstep : ∃ created, p.1.zone = w.zone ++ created ∧ (∀ x ∈ created, x.Comment = tag) ∧
          (Fresh w.alloc → UniqueIDs w.zone → UniqueIDs p.1.zone) := by
        rcases hpz with ⟨h1, -⟩ | ⟨h1, -⟩
        · exact ⟨[], by simp [h1], by simp, fun _ h => h1 ▸ h⟩
        · refine ⟨[stored w ⟨"", addr, c.fqdn name, "", tag⟩], h1, ?_, ?_⟩
          · intro x hx
            simp only [List.mem_singleton] at hx
            rw [hx]; rfl
          · intro hf hu
            rw [h1]
            exact UniqueIDs_stored w _ hf hu
      cases hput : p.2.2 with
      | some e =>
        simp only []
        exact hstep
      | none =>
        simp only []
        obtain ⟨c1, h1, h2, h3⟩ := hstep
        obtain ⟨c2, k1, k2, k3⟩ := ih tmp (p.2.1.ID :: seen) p.1
        refine ⟨c1 ++ c2, ?_, ?_, ?_⟩
        · rw [k1, h1, List.append_assoc]
        · intro x hx
          rcases List.mem_append.1 hx with hx | hx
          · exact h2 x hx
          · exact k2 x hx
        · intro hf hu
          exact k3 (hpa ▸ hf) (h3 hf hu)

/-- The loop over the desired state only appends records that carry the tag. -/
theorem nameLoop_zone (c : Client) (tag : String) (records : List (String × List String)) :
    ∀ (seen : List String) (w : World),
      ∃ created, (nameLoop c tag records seen w).1.zone = w.zone ++ created ∧
        (∀ x ∈ created, x.Comment = tag) ∧
        (Fresh w.alloc → UniqueIDs w.zone →
          UniqueIDs (nameLoop c tag records seen w).1.zone) := by
  induction records with
  | nil =>
    intro seen w
    exact ⟨[], by simp [nameLoop], by simp, fun _ h => h⟩
  | cons x rest ih =>
    obtain ⟨name, addrs⟩ := x
    intro seen w
    simp only [nameLoop]
    obtain ⟨hgz, hga, -, -⟩ := GetRecord_spec c "name" (c.fqdn name) w
    generalize hg : GetRecord c "name" (c.fqdn name) w = g at hgz hga
    obtain ⟨c1, h1, h2, h3⟩ := addrLoop_zone c tag name addrs (index g.2.1) seen g.1
    obtain ⟨haa, -⟩ := addrLoop_log c tag name addrs (index g.2.1) seen g.1
    generalize hr : addrLoop c tag name addrs (index g.2.1) seen g.1 = r at h1 h3 haa
    rw [hgz] at h1
    rw [hgz, hga] at h3
    cases herr : r.2.2 with
    | some e =>
      simp only []
      exact ⟨c1, h1, h2, h3⟩
    | none =>
      simp only []
      obtain ⟨c2, k1, k2, k3⟩ := ih r.2.1 r.1
      refine ⟨c1 ++ c2, ?_, ?_, ?_⟩
      · rw [k1, h1, List.append_assoc]
      · intro x hx
        rcases List.mem_append.1 hx with hx | hx
        · exact h2 x hx
        · exact k2 x hx
      · intro hf hu
        refine k3 ?_ (h3 hf hu)
        rw [haa, hga]; exact hf

/-- The loop over `remaining` only removes records whose identifier is that of a
listed record not in `seen`; against a store that answers every call it removes all of
them and returns nil. -/
theorem pruneLoop_zone (c : Client) (remaining : List DNSRecord) (seen : List String) :
    ∀ (w : World),
      ∃ gone : List String,
        (pruneLoop c remaining seen w).1.zone = w.zone.filter (fun x => x.ID ∉ gone) ∧
        (∀ id ∈ gone, ∃ rec ∈ remaining, rec.ID ∉ seen ∧ rec.ID = id) ∧
        (w.plan = [] →
          gone = (remaining.filter (fun rec => rec.ID ∉ seen)).map DNSRecord.ID ∧
          (pruneLoop c remaining seen w).2 = .ret none) := by
  induction remaining with
  | nil =>
    intro w
    exact ⟨[], by simp [pruneLoop], by simp, fun _ => ⟨by simp, by simp [pruneLoop]⟩⟩
  | cons rec rest ih =>
    intro w
    simp only [pruneLoop]
    by_cases hs : rec.ID ∈ seen
    · simp only [hs, if_true]
      obtain ⟨gone, h1, h2, h3⟩ := ih w
      refine ⟨gone, h1, ?_, ?_⟩
      · intro id hid
        obtain ⟨r, k1, k2⟩ := h2 id hid
        exact ⟨r, List.mem_cons_of_mem _ k1, k2⟩
      · intro hp
        obtain ⟨k1, k2⟩ := h3 hp
        refine ⟨?_, k2⟩
        rw [k1, List.filter_cons_of_neg (by simpa using hs)]
    · simp only [hs, if_false]
      obtain ⟨-, -, hdz, hdo⟩ := DelRecord_spec c rec w
      have hserved := DelRecord_served c rec w
      generalize hd : DelRecord c rec w = d at hdz hdo hserved
      replace hdz : (d.1.zone = w.zone ∧ w.plan ≠ []) ∨
          d.1.zone = w.zone.filter (fun r => r.ID ≠ rec.ID) := by
        by_cases hp : w.plan = []
        · exact Or.inr (hserved hp).2.1
        · rcases hdz with h | h
          · exact Or.inl ⟨h, hp⟩
          · exact Or.inr h
      rcases hdo with hdo | hdo | ⟨e, hdo⟩
      · rw [hdo]
        simp only []
        rcases hdz with ⟨hdz, hnp⟩ | hdz
        · exact ⟨[], by simp [hdz], by simp, fun hp => absurd hp hnp⟩
        · refine ⟨[rec.ID], by simp [hdz], ?_, ?_⟩
          · intro id hid
            simp only [List.mem_singleton] at hid
            exact ⟨rec, List.mem_cons_self _ _, hs, hid.symm⟩
          · intro hp
            rw [(hserved hp).2.2.2] at hdo
            cases hdo
      · rw [hdo]
        simp only []
        obtain ⟨gone, h1, h2, h3⟩ := ih d.1
        rcases hdz with ⟨hdz, hnp⟩ | hdz
        · refine ⟨gone, by rw [h1, hdz], ?_, fun hp => absurd hp hnp⟩
          intro id hid
          obtain ⟨r, k1, k2⟩ := h2 id hid
          exact ⟨r, List.mem_cons_of_mem _ k1, k2⟩
        · refine ⟨rec.ID :: gone, ?_, ?_, ?_⟩
          · rw [h1, hdz, List.filter_filter]
            apply List.filter_congr
            intro x _
            simp [not_or, Bool.and_comm]
          · intro id hid
            rcases List.mem_cons.1 hid with hid | hid
            · exact ⟨rec, List.mem_cons_self _ _, hs, hid.symm⟩
            · obtain ⟨r, k1, k2⟩ := h2 id hid
              exact ⟨r, List.mem_cons_of_mem _ k1, k2⟩
          · intro hp
            obtain ⟨k1, k2⟩ := h3 (hserved hp).1
            refine ⟨?_, k2⟩
            rw [k1, List.filter_cons_of_pos (by simpa using hs)]
            rfl
      · rw [hdo]
        simp only []
        rcases hdz with ⟨hdz, hnp⟩ | hdz
        · exact ⟨[], by simp [hdz], by simp, fun hp => absurd hp hnp⟩
        · refine ⟨[rec.ID], by simp [hdz], ?_, ?_⟩
          · intro id hid
            simp only [List.mem_singleton] at hid
            exact ⟨rec, List.mem_cons_self _ _, hs, hid.symm⟩
          · intro hp
            rw [(hserved hp).2.2.2] at hdo
            cases hdo

theorem field_name (r : DNSRecord) : field "name" r = r.Name := by
  simp [field]

theorem field_comment (r : DNSRecord) : field "comment" r = r.Comment := by
  simp [field]

theorem UniqueIDs_eq {zone : List DNSRecord} (hu : UniqueIDs zone) {x y : DNSRecord}
    (hx : x ∈ zone) (hy : y ∈ zone) (h : x.ID = y.ID) : x = y :=
  List.inj_on_of_nodup_map hu hx hy h

/-- What `ReconcileDNS` is made of: the loop over the desired state, then, unless a
`PutRecord` failed, the lookup by comment and the loop over its result. -/
theorem ReconcileDNS_eq (c : Client) (tag : String) (records : List (String × List String))
    (w : World) :
    ((nameLoop c tag records [] w).2.2 ≠ none ∧
      ReconcileDNS c tag records w =
        ((nameLoop c tag records [] w).1, .ret (nameLoop c tag records [] w).2.2)) ∨
    ((nameLoop c tag records [] w).2.2 = none ∧
      ReconcileDNS c tag records w =
        pruneLoop c (GetRecord c "comment" tag (nameLoop c tag records [] w).1).2.1
          (nameLoop c tag records [] w).2.1
          (GetRecord c "comment" tag (nameLoop c tag records [] w).1).1) := by
  unfold ReconcileDNS
  cases h : (nameLoop c tag records [] w).2.2 with
  | some e => exact Or.inl ⟨by simp, by simp only [h]⟩
  | none => exact Or.inr ⟨rfl, by simp only [h]⟩

theorem NameCall_put {c : Client} {tag : String} {records : List (String × List String)}
    {rr : DNSRecord} {e : GoError} (h : NameCall c tag records (.PutRecord rr e)) :
    rr.Comment = tag := by
  rcases h with ⟨n, as, a, e, -, -, h3⟩ | ⟨n, as, rs, e, -, h2⟩
  · cases h3; rfl
  · cases h2

theorem NameCall_del {c : Client} {tag : String} {records : List (String × List String)}
    {rr : DNSRecord} {o : Outcome GoError} : ¬ NameCall c tag records (.DelRecord rr o) := by
  rintro (⟨n, as, a, e, -, -, h3⟩ | ⟨n, as, rs, e, -, h2⟩)
  · cases h3
  · cases h2

theorem filter_foreign_append (tag : String) (zone created : List DNSRecord)
    (h : ∀ x ∈ created, x.Comment = tag) :
    (zone ++ created).filter (fun x => x.Comment ≠ tag) =
      zone.filter (fun x => x.Comment ≠ tag) := by
  rw [List.filter_append]
  have : created.filter (fun x => x.Comment ≠ tag) = [] := by
    rw [List.filter_eq_nil_iff]
    intro x hx
    simpa using h x hx
  rw [this, List.append_nil]

/-- C4. Tag isolation: in a pass for `tag`, whatever the store answers, every record
handed to `PutRecord` carries the tag, every record handed to `DelRecord` carries the tag
and was returned by the lookup by comment for the tag, and the records of the zone with
another comment are after the pass exactly what they were before (none added, removed
or changed), whether the pass returns nil, returns an error or panics. The zone is one
whose identifiers are pairwise distinct and the store never reuses an identifier in use. -/
theorem ReconcileDNS_tag_isolation (c : Client) (tag : String)
    (records : List (String × List String)) (zone : List DNSRecord)
    (alloc : List DNSRecord → String) (plan : List Fault)
    (hf : Fresh alloc) (hu : UniqueIDs zone) :
    (∀ rr e, Call.PutRecord rr e ∈ (ReconcileDNS c tag records (World.init zone alloc plan)).1.log →
      rr.Comment = tag) ∧
    (∀ rec o, Call.DelRecord rec o ∈ (ReconcileDNS c tag records (World.init zone alloc plan)).1.log →
      rec.Comment = tag ∧
      ∃ rs e, Call.GetRecord "comment" tag rs e ∈
          (ReconcileDNS c tag records (World.init zone alloc plan)).1.log ∧ rec ∈ rs) ∧
    (ReconcileDNS c tag records (World.init zone alloc plan)).1.zone.filter
        (fun x => x.Comment ≠ tag) = zone.filter (fun x => x.Comment ≠ tag) := by
  obtain ⟨hna, t, hlog, hall, -⟩ := nameLoop_log c tag records [] (World.init zone alloc plan)
  obtain ⟨created, hz, hct, huz⟩ := nameLoop_zone c tag records [] (World.init zone alloc plan)
  replace huz := huz hf hu
  have hlog0 : (World.init zone alloc plan).log = [] := rfl
  have hzone0 : (World.init zone alloc plan).zone = zone := rfl
  rw [hlog0, List.nil_append] at hlog
  rw [hzone0] at hz
  rcases ReconcileDNS_eq c tag records (World.init zone alloc plan) with ⟨-, heq⟩ | ⟨-, heq⟩
  · rw [heq]
    refine ⟨?_, ?_, ?_⟩
    · intro rr e h
      exact NameCall_put (hall _ (hlog ▸ h))
    · intro rec o h
      exact absurd (hall _ (hlog ▸ h)) NameCall_del
    · show (nameLoop c tag records [] (World.init zone alloc plan)).1.zone.filter _ = _
      rw [hz]
      exact filter_foreign_append tag zone created hct
  · rw [heq]
    obtain ⟨hgz, -, hglog, hgr⟩ :=
      GetRecord_spec c "comment" tag (nameLoop c tag records [] (World.init zone alloc plan)).1
    generalize hg : GetRecord c "comment" tag
      (nameLoop c tag records [] (World.init zone alloc plan)).1 = g at hgz hglog hgr
    generalize hr : nameLoop c tag records [] (World.init zone alloc plan) = r at *
    obtain ⟨-, -, td, hplog, hpall, -⟩ := pruneLoop_log c g.2.1 r.2.1 g.1
    obtain ⟨gone, hpz, hgone, -⟩ := pruneLoop_zone c g.2.1 r.2.1 g.1
    have hrem : ∀ rec ∈ g.2.1, rec ∈ r.1.zone ∧ rec.Comment = tag := by
      intro rec hrec
      rcases hgr with h | ⟨h, -⟩
      · rw [h] at hrec; simp at hrec
      · rw [h, List.mem_filter] at hrec
        simpa [field_comment] using hrec
    have hfull : (pruneLoop c g.2.1 r.2.1 g.1).1.log =
        t ++ Call.GetRecord "comment" tag g.2.1 g.2.2 :: td := by
      rw [hplog, hglog, hlog]; simp
    refine ⟨?_, ?_, ?_⟩
    · intro rr e h
      rw [hfull] at h
      rcases List.mem_append.1 h with h | h
      · exact NameCall_put (hall _ h)
      · rcases List.mem_cons.1 h with h | h
        · cases h
        · obtain ⟨rec, o, -, -, k⟩ := hpall _ h
          cases k
    · intro rec o h
      rw [hfull] at h
      rcases List.mem_append.1 h with h | h
      · exact absurd (hall _ h) NameCall_del
      · rcases List.mem_cons.1 h with h | h
        · cases h
        · obtain ⟨rec1, o1, k1, -, k⟩ := hpall _ h
          cases k
          refine ⟨(hrem rec k1).2, g.2.1, g.2.2, ?_, k1⟩
          rw [hfull]
          exact List.mem_append_right _ (List.mem_cons_self _ _)
    · rw [hpz, hgz, List.filter_filter, hz, ← filter_foreign_append tag zone created hct, ← hz]
      apply List.filter_congr
      intro x hx
      by_cases hxt : x.Comment = tag
      · simp [hxt]
      · have : x.ID ∉ gone := by
          intro hmem
          obtain ⟨rec, k1, -, k2⟩ := hgone x.ID hmem
          obtain ⟨k3, k4⟩ := hrem rec k1
          have := UniqueIDs_eq huz k3 hx k2
          exact hxt (this ▸ k4)
        simp [hxt, this]

theorem starAlloc_length_le (zone : List DNSRecord) :
    ∀ r ∈ zone, r.ID.length ≤ (zone.map (fun r => r.ID.length)).foldr max 0 := by
  induction zone with
  | nil => intro r hr; simp at hr
  | cons x rest ih =>
    intro r hr
    simp only [List.map_cons, List.foldr_cons]
    rcases List.mem_cons.1 hr with h | h
    · rw [h]; exact le_max_left _ _
    · exact le_trans (ih r h) (le_max_right _ _)

theorem starAlloc_fresh : Fresh starAlloc := by
  intro zone hmem
  obtain ⟨r, hr, hid⟩ := List.mem_map.1 hmem
  have h1 := starAlloc_length_le zone r hr
  have h2 : (starAlloc zone).length = (zone.map (fun r => r.ID.length)).foldr max 0 + 1 := by
    unfold starAlloc
    show (List.replicate _ '*').length = _
    rw [List.length_replicate]
  rw [hid, h2] at h1
  omega

/-- C6. A failing create aborts the pass before any deletion: whatever the store
answers, if some `PutRecord` call of the pass returned an error then `ReconcileDNS`
returns that very error, that call is the last call of the pass (no `PutRecord` made
before it had failed), the pass makes no `DelRecord` call, and the zone afterwards is the
zone before with records appended, so that no record is removed. -/
theorem ReconcileDNS_put_failure_aborts (c : Client) (tag : String)
    (records : List (String × List String)) (zone : List DNSRecord)
    (alloc : List DNSRecord → String) (plan : List Fault) (rr : DNSRecord) (e : String)
    (h : Call.PutRecord rr (some e) ∈
      (ReconcileDNS c tag records (World.init zone alloc plan)).1.log) :
    (ReconcileDNS c tag records (World.init zone alloc plan)).2 = .ret (some e) ∧
    (∃ t, (ReconcileDNS c tag records (World.init zone alloc plan)).1.log =
        t ++ [.PutRecord rr (some e)] ∧ PutsOk t) ∧
    (∀ rec o, Call.DelRecord rec o ∉
      (ReconcileDNS c tag records (World.init zone alloc plan)).1.log) ∧
    ∃ created,
      (ReconcileDNS c tag records (World.init zone alloc plan)).1.zone = zone ++ created := by
  obtain ⟨-, t, hlog, hall, herr⟩ := nameLoop_log c tag records [] (World.init zone alloc plan)
  obtain ⟨created, hz, -, -⟩ := nameLoop_zone c tag records [] (World.init zone alloc plan)
  have hlog0 : (World.init zone alloc plan).log = [] := rfl
  have hzone0 : (World.init zone alloc plan).zone = zone := rfl
  rw [hlog0, List.nil_append] at hlog
  rw [hzone0] at hz
  rcases ReconcileDNS_eq c tag records (World.init zone alloc plan) with ⟨hne, heq⟩ | ⟨hnone, heq⟩
  · rw [heq] at h ⊢
    simp only [] at h ⊢
    rcases herr with ⟨h1, -⟩ | ⟨t1, rr1, e1, h1, h2, h3⟩
    · exact absurd h1 hne
    · rw [hlog, h2] at h
      have hsame : rr = rr1 ∧ e = e1 := by
        rcases List.mem_append.1 h with h | h
        · exact absurd (h3 rr (some e) h) (by simp)
        · simpa using h
      obtain ⟨hrr, he⟩ := hsame
      subst hrr; subst he
      refine ⟨by rw [h1], ⟨t1, by rw [hlog, h2], h3⟩, ?_, created, hz⟩
      intro rec o hmem
      exact NameCall_del (hall _ (hlog ▸ hmem))
  · exfalso
    rw [heq] at h
    obtain ⟨-, -, hglog, -⟩ :=
      GetRecord_spec c "comment" tag (nameLoop c tag records [] (World.init zone alloc plan)).1
    generalize hg : GetRecord c "comment" tag
      (nameLoop c tag records [] (World.init zone alloc plan)).1 = g at hglog h
    generalize hr : nameLoop c tag records [] (World.init zone alloc plan) = r at *
    obtain ⟨-, -, td, hplog, hpall, -⟩ := pruneLoop_log c g.2.1 r.2.1 g.1
    rw [hplog, hglog, hlog] at h
    rcases herr with ⟨-, h2⟩ | ⟨t1, rr1, e1, h1, -, -⟩
    · rcases List.mem_append.1 h with h | h
      · rcases List.mem_append.1 h with h | h
        · exact absurd (h2 rr (some e) h) (by simp)
        · simp at h
      · obtain ⟨rec, o, -, -, k⟩ := hpall _ h
        cases k
    · rw [hnone] at h1
      cases h1

/-! ## Lookups that fail -/

theorem GetRecord_transport (c : Client) (key value msg : String) (w : World)
    (plan : List Fault) (h : w.plan = .transport msg :: plan) :
    (GetRecord c key value w).2.1 = [] ∧ (GetRecord c key value w).2.2 = some msg := by
  unfold GetRecord getRecord Do
  simp [h]

theorem ReconcileDNS_log_extends (c : Client) (tag : String)
    (records : List (String × List String)) (w : World) :
    ∃ t, (ReconcileDNS c tag records w).1.log = (nameLoop c tag records [] w).1.log ++ t := by
  rcases ReconcileDNS_eq c tag records w with ⟨-, heq⟩ | ⟨-, heq⟩
  · exact ⟨[], by rw [heq]; simp⟩
  · obtain ⟨-, -, hglog, -⟩ := GetRecord_spec c "comment" tag (nameLoop c tag records [] w).1
    obtain ⟨-, -, td, hplog, -, -⟩ :=
      pruneLoop_log c (GetRecord c "comment" tag (nameLoop c tag records [] w).1).2.1
        (nameLoop c tag records [] w).2.1 (GetRecord c "comment" tag (nameLoop c tag records [] w).1).1
    exact ⟨Call.GetRecord "comment" tag
      (GetRecord c "comment" tag (nameLoop c tag records [] w).1).2.1
      (GetRecord c "comment" tag (nameLoop c tag records [] w).1).2.2 :: td,
      by rw [heq, hplog, hglog]; simp⟩

theorem addrLoop_first_put (c : Client) (tag name addr : String) (addrs : List String)
    (tmp : GoMap DNSRecord) (seen : List String) (w : World) (h : tmp addr = none) :
    ∃ e t, (addrLoop c tag name (addr :: addrs) tmp seen w).1.log =
      w.log ++ .PutRecord ⟨"", addr, c.fqdn name, "", tag⟩ e :: t := by
  simp only [addrLoop, h]
  obtain ⟨-, hplog, -⟩ := PutRecord_spec c ⟨"", addr, c.fqdn name, "", tag⟩ w
  generalize hp : PutRecord c ⟨"", addr, c.fqdn name, "", tag⟩ w = p at hplog
  cases hput : p.2.2 with
  | some e =>
    simp only []
    exact ⟨some e, [], by rw [hplog, hput]⟩
  | none =>
    simp only []
    obtain ⟨-, t, hlog, -⟩ := addrLoop_log c tag name addrs tmp (p.2.1.ID :: seen) p.1
    exact ⟨none, t, by rw [hlog, hplog, hput]; simp⟩

/-- C7 as the code has it. `ReconcileDNS` discards the error of `GetRecord` and goes on
with an empty list: (1) an error returned by `ReconcileDNS` is always the error returned
by the last call of the pass, and that call is a `PutRecord` or a `DelRecord`, never a
lookup; (2) when
the lookup by comment for the tag fails, its result is empty, no `DelRecord` call is
made and `ReconcileDNS` returns nil; (3) when the transport fails on the lookup by name
for the first service, the next call is the `PutRecord` for the first address listed
for that service. -/
theorem ReconcileDNS_lookup_failure_ignored (c : Client) (tag : String)
    (records : List (String × List String)) (zone : List DNSRecord)
    (alloc : List DNSRecord → String) (plan : List Fault) :
    (∀ e, (ReconcileDNS c tag records (World.init zone alloc plan)).2 = .ret (some e) →
      ∃ t rr, (ReconcileDNS c tag records (World.init zone alloc plan)).1.log =
          t ++ [.PutRecord rr (some e)] ∨
        (ReconcileDNS c tag records (World.init zone alloc plan)).1.log =
          t ++ [.DelRecord rr (.ret (some e))]) ∧
    (∀ rs e, Call.GetRecord "comment" tag rs (some e) ∈
        (ReconcileDNS c tag records (World.init zone alloc plan)).1.log →
      rs = [] ∧
      (ReconcileDNS c tag records (World.init zone alloc plan)).2 = .ret none ∧
      ∀ rec o, Call.DelRecord rec o ∉
        (ReconcileDNS c tag records (World.init zone alloc plan)).1.log) ∧
    (∀ name addr addrs rest msg plan1,
      records = (name, addr :: addrs) :: rest → plan = .transport msg :: plan1 →
      ∃ e t, (ReconcileDNS c tag records (World.init zone alloc plan)).1.log =
        .GetRecord "name" (c.fqdn name) [] (some msg) ::
          .PutRecord ⟨"", addr, c.fqdn name, "", tag⟩ e :: t) := by
  refine ⟨?_, ?_, ?_⟩
  · intro e he
    obtain ⟨-, t, hlog, -, herr⟩ := nameLoop_log c tag records [] (World.init zone alloc plan)
    rcases ReconcileDNS_eq c tag records (World.init zone alloc plan) with ⟨hne, heq⟩ | ⟨-, heq⟩
    · rw [heq] at he ⊢
      simp only [Outcome.ret.injEq] at he
      rcases herr with ⟨h1, -⟩ | ⟨t1, rr1, e1, h1, h2, -⟩
      · exact absurd h1 hne
      · rw [he] at h1
        cases h1
        exact ⟨(World.init zone alloc plan).log ++ t1, rr1, Or.inl (by
          show (nameLoop c tag records [] (World.init zone alloc plan)).1.log = _
          rw [hlog, h2, List.append_assoc])⟩
    · rw [heq] at he ⊢
      obtain ⟨-, -, td, hplog, -, hlast⟩ :=
        pruneLoop_log c (GetRecord c "comment" tag
            (nameLoop c tag records [] (World.init zone alloc plan)).1).2.1
          (nameLoop c tag records [] (World.init zone alloc plan)).2.1
          (GetRecord c "comment" tag (nameLoop c tag records [] (World.init zone alloc plan)).1).1
      obtain ⟨t1, rec, ht1⟩ := hlast e he
      exact ⟨_ ++ t1, rec, Or.inr (by rw [hplog, ht1, List.append_assoc])⟩
  · intro rs e hmem
    obtain ⟨-, t, hlog, hall, herr⟩ := nameLoop_log c tag records [] (World.init zone alloc plan)
    have hlog0 : (World.init zone alloc plan).log = [] := rfl
    rw [hlog0, List.nil_append] at hlog
    have hnot : Call.GetRecord "comment" tag rs (some e) ∉ t := by
      intro hin
      rcases hall _ hin with ⟨n, as, a, e1, -, -, h3⟩ | ⟨n, as, rs1, e1, -, h2⟩
      · cases h3
      · simp at h2
    rcases ReconcileDNS_eq c tag records (World.init zone alloc plan) with ⟨-, heq⟩ | ⟨-, heq⟩
    · rw [heq] at hmem
      exact absurd (hlog ▸ hmem) hnot
    · rw [heq] at hmem ⊢
      obtain ⟨-, -, hglog, hgr⟩ :=
        GetRecord_spec c "comment" tag (nameLoop c tag records [] (World.init zone alloc plan)).1
      generalize hg : GetRecord c "comment" tag
        (nameLoop c tag records [] (World.init zone alloc plan)).1 = g at hglog hgr hmem
      generalize hr : nameLoop c tag records [] (World.init zone alloc plan) = r at *
      obtain ⟨-, -, td, hplog, hpall, -⟩ := pruneLoop_log c g.2.1 r.2.1 g.1
      rw [hplog, hglog, hlog] at hmem
      have hscan : rs = g.2.1 ∧ some e = g.2.2 := by
        rcases List.mem_append.1 hmem with h | h
        · rcases List.mem_append.1 h with h | h
          · exact absurd h hnot
          · simpa using h
        · obtain ⟨rec, o, -, -, k⟩ := hpall _ h
          cases k
      have hnil : g.2.1 = [] := by
        rcases hgr with h | ⟨-, h⟩
        · exact h
        · rw [h] at hscan
          exact absurd hscan.2 (by simp)
      rw [hnil]
      refine ⟨hscan.1.trans hnil, rfl, ?_⟩
      intro rec o hdel
      simp only [pruneLoop] at hdel
      rw [hglog, hlog] at hdel
      rcases List.mem_append.1 hdel with h | h
      · exact NameCall_del (hall _ h)
      · simp at h
  · intro name addr addrs rest msg plan1 hrec hplan
    subst hrec; subst hplan
    obtain ⟨t3, h3⟩ := ReconcileDNS_log_extends c tag ((name, addr :: addrs) :: rest)
      (World.init zone alloc (.transport msg :: plan1))
    obtain ⟨hg1, hg2⟩ := GetRecord_transport c "name" (c.fqdn name) msg
      (World.init zone alloc (.transport msg :: plan1)) plan1 rfl
    obtain ⟨-, -, hglog, -⟩ := GetRecord_spec c "name" (c.fqdn name)
      (World.init zone alloc (.transport msg :: plan1))
    rw [hg1, hg2] at hglog
    have hname : ∃ e t, (nameLoop c tag ((name, addr :: addrs) :: rest) []
        (World.init zone alloc (.transport msg :: plan1))).1.log =
        .GetRecord "name" (c.fqdn name) [] (some msg) ::
          .PutRecord ⟨"", addr, c.fqdn name, "", tag⟩ e :: t := by
      simp only [nameLoop]
      rw [hg1]
      obtain ⟨e, t, ha⟩ := addrLoop_first_put c tag name addr addrs (index []) []
        (GetRecord c "name" (c.fqdn name) (World.init zone alloc (.transport msg :: plan1))).1 rfl
      rw [hglog] at ha
      generalize hr : addrLoop c tag name (addr :: addrs) (index [])
        [] (GetRecord c "name" (c.fqdn name)
          (World.init zone alloc (.transport msg :: plan1))).1 = r at ha
      cases herr : r.2.2 with
      | some e1 =>
        simp only []
        exact ⟨e, t, ha⟩
      | none =>
        simp only []
        obtain ⟨-, t2, h2, -⟩ := nameLoop_log c tag rest r.2.1 r.1
        exact ⟨e, t ++ t2, by rw [h2, ha]; rfl⟩
    obtain ⟨e, t, hn⟩ := hname
    exact ⟨e, t ++ t3, by rw [h3, hn]; rfl⟩

/-! ## A pass against a store that answers every call

With no fault in the plan the pass is a function of the zone alone.  `addrServed` and
`nameServed` are the two loops of `ReconcileDNS` over the desired state written on the
zone; `addrLoop_served` and `nameLoop_served` show that they are what the loops do. -/

theorem addrLoop_served (c : Client) (tag name : String) (addrs : List String) :
    ∀ (tmp : GoMap DNSRecord) (seen : List String) (w : World), w.plan = [] →
      (addrLoop c tag name addrs tmp seen w).1.plan = [] ∧
      (addrLoop c tag name addrs tmp seen w).1.alloc = w.alloc ∧
      (addrLoop c tag name addrs tmp seen w).2.2 = none ∧
      (addrLoop c tag name addrs tmp seen w).1.zone =
        (addrServed w.alloc tag (c.fqdn name) addrs tmp seen w.zone).1 ∧
      (addrLoop c tag name addrs tmp seen w).2.1 =
        (addrServed w.alloc tag (c.fqdn name) addrs tmp seen w.zone).2 := by
  induction addrs with
  | nil =>
    intro tmp seen w hp
    simp [addrLoop, addrServed, hp]
  | cons addr addrs ih =>
    intro tmp seen w hp
    simp only [addrLoop, addrServed]
    cases htmp : tmp addr with
    | some rec =>
      simp only []
      exact ih (tmp.erase addr) (rec.ID :: seen) w hp
    | none =>
      simp only []
      obtain ⟨h1, h2, h3, h4, h5⟩ :=
        PutRecord_served c ⟨"", addr, c.fqdn name, "", tag⟩ w hp rfl
      generalize hput : PutRecord c ⟨"", addr, c.fqdn name, "", tag⟩ w = p at h1 h2 h3 h4 h5
      rw [h5]
      simp only []
      rw [h4]
      have := ih tmp (w.alloc w.zone :: seen) p.1 h1
      rw [h2, h3] at this
      exact this

theorem nameLoop_served (c : Client) (tag : String) (records : List (String × List String)) :
    ∀ (seen : List String) (w : World), w.plan = [] →
      (nameLoop c tag records seen w).1.plan = [] ∧
      (nameLoop c tag records seen w).1.alloc = w.alloc ∧
      (nameLoop c tag records seen w).2.2 = none ∧
      (nameLoop c tag records seen w).1.zone = (nameServed c w.alloc tag records seen w.zone).1 ∧
      (nameLoop c tag records seen w).2.1 = (nameServed c w.alloc tag records seen w.zone).2 := by
  induction records with
  | nil =>
    intro seen w hp
    simp [nameLoop, nameServed, hp]
  | cons x rest ih =>
    obtain ⟨name, addrs⟩ := x
    intro seen w hp
    simp only [nameLoop, nameServed]
    obtain ⟨h1, h2, h3, h4⟩ := GetRecord_served c "name" (c.fqdn name) w hp
    simp only [field_name] at h4
    generalize hg : GetRecord c "name" (c.fqdn name) w = g at h1 h2 h3 h4
    obtain ⟨k1, k2, k3, k4, k5⟩ := addrLoop_served c tag name addrs (index g.2.1) seen g.1 h1
    generalize hr : addrLoop c tag name addrs (index g.2.1) seen g.1 = r at k1 k2 k3 k4 k5
    rw [h2, h3, h4] at k4 k5
    rw [k3]
    simp only []
    have := ih r.2.1 r.1 k1
    rw [k2, h3] at this
    rw [← k4, ← k5]
    exact this

/-- A pass against a store that answers every call returns nil, and leaves the zone
the loop over the desired state built, without the records that carry the tag and whose
identifier is not in `seen`. -/
theorem ReconcileDNS_served (c : Client) (tag : String) (records : List (String × List String))
    (zone : List DNSRecord) (alloc : List DNSRecord → String) :
    (ReconcileDNS c tag records (World.init zone alloc [])).2 = .ret none ∧
    (ReconcileDNS c tag records (World.init zone alloc [])).1.zone =
      (nameServed c alloc tag records [] zone).1.filter (fun x => x.ID ∉
        (((nameServed c alloc tag records [] zone).1.filter (fun x => x.Comment = tag)).filter
          (fun x => x.ID ∉ (nameServed c alloc tag records [] zone).2)).map DNSRecord.ID) := by
  obtain ⟨h1, h2, h3, h4, h5⟩ := nameLoop_served c tag records [] (World.init zone alloc []) rfl
  rcases ReconcileDNS_eq c tag records (World.init zone alloc []) with ⟨hne, -⟩ | ⟨-, heq⟩
  · exact absurd h3 hne
  · rw [heq]
    obtain ⟨g1, g2, g3, g4⟩ := GetRecord_served c "comment" tag
      (nameLoop c tag records [] (World.init zone alloc [])).1 h1
    simp only [field_comment] at g4
    generalize hg : GetRecord c "comment" tag
      (nameLoop c tag records [] (World.init zone alloc [])).1 = g at g1 g2 g3 g4
    obtain ⟨gone, p1, -, p3⟩ := pruneLoop_zone c g.2.1
      (nameLoop c tag records [] (World.init zone alloc [])).2.1 g.1
    obtain ⟨p3, p4⟩ := p3 g1
    refine ⟨p4, ?_⟩
    rw [p1, p3, g2, g4, h4, h5]
    rfl

/-! ### The index `tmp` -/

theorem index_append_singleton (rr : List DNSRecord) (x : DNSRecord) (a : String) :
    index (rr ++ [x]) a = if a = x.Address then some x else index rr a := by
  unfold index
  rw [List.foldl_append]
  rfl

/-- The index holds, under an address, the last record of the listing with that address. -/
theorem index_eq_getLast? (rr : List DNSRecord) (a : String) :
    index rr a = (rr.filter (fun r => r.Address = a)).getLast? := by
  induction rr using List.reverseRecOn with
  | nil => rfl
  | append_singleton rr x ih =>
    rw [index_append_singleton, List.filter_append]
    by_cases h : a = x.Address
    · subst h
      simp
    · have h2 : ¬ x.Address = a := fun k => h k.symm
      simp [h, h2, ih]

theorem index_mem {rr : List DNSRecord} {a : String} {rec : DNSRecord}
    (h : index rr a = some rec) : rec ∈ rr ∧ rec.Address = a := by
  rw [index_eq_getLast?] at h
  have := List.mem_of_getLast?_eq_some h
  simpa using this

theorem TmpIn_index (zone : List DNSRecord) (fq : String) :
    TmpIn (index (zone.filter (fun x => x.Name = fq))) zone fq := by
  intro a rec h
  obtain ⟨h1, h2⟩ := index_mem h
  rw [List.mem_filter] at h1
  exact ⟨h1.1, by simpa using h1.2, h2⟩

theorem TmpIn_erase {tmp : GoMap DNSRecord} {zone : List DNSRecord} {fq : String}
    (h : TmpIn tmp zone fq) (addr : String) : TmpIn (tmp.erase addr) zone fq := by
  intro a rec ha
  unfold GoMap.erase at ha
  by_cases k : a = addr
  · simp [k] at ha
  · simp only [k, if_false] at ha
    exact h a rec ha

theorem TmpIn_append {tmp : GoMap DNSRecord} {zone : List DNSRecord} {fq : String}
    (h : TmpIn tmp zone fq) (more : List DNSRecord) : TmpIn tmp (zone ++ more) fq := by
  intro a rec ha
  obtain ⟨h1, h2⟩ := h a rec ha
  exact ⟨List.mem_append_left _ h1, h2⟩

/-! ### What the loops over the desired state do to the zone and to `seen` -/

theorem UniqueIDs_append_fresh (alloc : List DNSRecord → String) (zone : List DNSRecord)
    (a n t k : String) (hf : Fresh alloc) (hu : UniqueIDs zone) :
    UniqueIDs (zone ++ [⟨alloc zone, a, n, t, k⟩]) := by
  unfold UniqueIDs at *
  rw [List.map_append, List.nodup_append]
  refine ⟨hu, by simp, ?_⟩
  intro x hx hb
  simp only [List.map_cons, List.map_nil, List.mem_singleton] at hb
  exact hf zone (hb ▸ hx)

/-- The loop over `addrs`: records are only appended, each with the tag, the name
`fq` and an address of `addrs`; the identifiers stay distinct; `seen` only grows, by
identifiers of records of the zone with the name `fq` and an address of `addrs`. -/
theorem addrServed_spec (alloc : List DNSRecord → String) (tag fq : String)
    (addrs : List String) :
    ∀ (tmp : GoMap DNSRecord) (seen : List String) (zone : List DNSRecord),
      (∃ created, (addrServed alloc tag fq addrs tmp seen zone).1 = zone ++ created ∧
        ∀ x ∈ created, x.Comment = tag ∧ x.Name = fq ∧ x.Address ∈ addrs) ∧
      (Fresh alloc → UniqueIDs zone → UniqueIDs (addrServed alloc tag fq addrs tmp seen zone).1) ∧
      (∀ id ∈ seen, id ∈ (addrServed alloc tag fq addrs tmp seen zone).2) ∧
      (TmpIn tmp zone fq → ∀ id ∈ (addrServed alloc tag fq addrs tmp seen zone).2, id ∈ seen ∨
        ∃ y ∈ (addrServed alloc tag fq addrs tmp seen zone).1,
          y.ID = id ∧ y.Name = fq ∧ y.Address ∈ addrs) := by
  induction addrs with
  | nil =>
    intro tmp seen zone
    simp only [addrServed]
    exact ⟨⟨[], by simp, by simp⟩, fun _ h => h, fun _ h => h, fun _ id h => Or.inl h⟩
  | cons addr addrs ih =>
    intro tmp seen zone
    simp only [addrServed]
    cases htmp : tmp addr with
    | some rec =>
      simp only []
      obtain ⟨⟨created, h1, h2⟩, h3, h4, h5⟩ := ih (tmp.erase addr) (rec.ID :: seen) zone
      refine ⟨⟨created, h1, ?_⟩, h3, ?_, ?_⟩
      · intro x hx
        obtain ⟨k1, k2, k3⟩ := h2 x hx
        exact ⟨k1, k2, List.mem_cons_of_mem _ k3⟩
      · intro id hid
        exact h4 id (List.mem_cons_of_mem _ hid)
      · intro ht id hid
        rcases h5 (TmpIn_erase ht addr) id hid with k | ⟨y, k1, k2, k3, k4⟩
        · rcases List.mem_cons.1 k with k | k
          · obtain ⟨j1, j2, j3⟩ := ht addr rec htmp
            refine Or.inr ⟨rec, ?_, k.symm, j2, ?_⟩
            · rw [h1]; exact List.mem_append_left _ j1
            · rw [j3]; exact List.mem_cons_self _ _
          · exact Or.inl k
        · exact Or.inr ⟨y, k1, k2, k3, List.mem_cons_of_mem _ k4⟩
    | none =>
      simp only []
      obtain ⟨⟨created, h1, h2⟩, h3, h4, h5⟩ :=
        ih tmp (alloc zone :: seen) (zone ++ [⟨alloc zone, addr, fq, "", tag⟩])
      refine ⟨⟨⟨alloc zone, addr, fq, "", tag⟩ :: created, ?_, ?_⟩, ?_, ?_, ?_⟩
      · rw [h1]; simp
      · intro x hx
        rcases List.mem_cons.1 hx with hx | hx
        · rw [hx]; exact ⟨rfl, rfl, List.mem_cons_self _ _⟩
        · obtain ⟨k1, k2, k3⟩ := h2 x hx
          exact ⟨k1, k2, List.mem_cons_of_mem _ k3⟩
      · intro hf hu
        exact h3 hf (UniqueIDs_append_fresh alloc zone _ _ _ _ hf hu)
      · intro id hid
        exact h4 id (List.mem_cons_of_mem _ hid)
      · intro ht id hid
        rcases h5 (TmpIn_append ht _) id hid with k | ⟨y, k1, k2, k3, k4⟩
        · rcases List.mem_cons.1 k with k | k
          · refine Or.inr ⟨⟨alloc zone, addr, fq, "", tag⟩, ?_, k.symm, rfl, List.mem_cons_self _ _⟩
            rw [h1]
            exact List.mem_append_left _ (List.mem_append_right _ (List.mem_singleton.2 rfl))
          · exact Or.inl k
        · exact Or.inr ⟨y, k1, k2, k3, List.mem_cons_of_mem _ k4⟩

theorem Desired_mono {c : Client} {records : List (String × List String)} {x : DNSRecord}
    (e : String × List String) (h : Desired c records x) : Desired c (e :: records) x := by
  obtain ⟨n, as, h1, h2⟩ := h
  exact ⟨n, as, List.mem_cons_of_mem _ h1, h2⟩

/-- The loop over the desired state: records are only appended, each with the tag and
a desired name and address; the identifiers stay distinct; `seen` only grows, by
identifiers of records of the zone with a desired name and address. -/
theorem nameServed_spec (c : Client) (alloc : List DNSRecord → String) (tag : String)
    (records : List (String × List String)) :
    ∀ (seen : List String) (zone : List DNSRecord),
      (∃ created, (nameServed c alloc tag records seen zone).1 = zone ++ created ∧
        ∀ x ∈ created, x.Comment = tag ∧ Desired c records x) ∧
      (Fresh alloc → UniqueIDs zone → UniqueIDs (nameServed c alloc tag records seen zone).1) ∧
      (∀ id ∈ seen, id ∈ (nameServed c alloc tag records seen zone).2) ∧
      (∀ id ∈ (nameServed c alloc tag records seen zone).2, id ∈ seen ∨
        ∃ y ∈ (nameServed c alloc tag records seen zone).1, y.ID = id ∧ Desired c records y) := by
  induction records with
  | nil =>
    intro seen zone
    simp only [nameServed]
    exact ⟨⟨[], by simp, by simp⟩, fun _ h => h, fun _ h => h, fun id h => Or.inl h⟩
  | cons e rest ih =>
    obtain ⟨name, addrs⟩ := e
    intro seen zone
    simp only [nameServed]
    obtain ⟨⟨c1, a1, a2⟩, a3, a4, a5⟩ := addrServed_spec alloc tag (c.fqdn name) addrs
      (index (zone.filter (fun x => x.Name = c.fqdn name))) seen zone
    replace a5 := a5 (TmpIn_index zone (c.fqdn name))
    generalize addrServed alloc tag (c.fqdn name) addrs
      (index (zone.filter (fun x => x.Name = c.fqdn name))) seen zone = r at a1 a3 a4 a5
    obtain ⟨⟨c2, b1, b2⟩, b3, b4, b5⟩ := ih r.2 r.1
    refine ⟨⟨c1 ++ c2, ?_, ?_⟩, ?_, ?_, ?_⟩
    · rw [b1, a1, List.append_assoc]
    · intro x hx
      rcases List.mem_append.1 hx with hx | hx
      · obtain ⟨k1, k2, k3⟩ := a2 x hx
        exact ⟨k1, name, addrs, List.mem_cons_self _ _, k2, k3⟩
      · obtain ⟨k1, k2⟩ := b2 x hx
        exact ⟨k1, Desired_mono _ k2⟩
    · intro hf hu
      exact b3 hf (a3 hf hu)
    · intro id hid
      exact b4 id (a4 id hid)
    · intro id hid
      rcases b5 id hid with k | ⟨y, k1, k2, k3⟩
      · rcases a5 id k with j | ⟨y, j1, j2, j3, j4⟩
        · exact Or.inl j
        · refine Or.inr ⟨y, ?_, j2, name, addrs, List.mem_cons_self _ _, j3, j4⟩
          rw [b1]; exact List.mem_append_left _ j1
      · exact Or.inr ⟨y, k1, k2, Desired_mono _ k3⟩

/-! ### The record listed last for a name and address is the one marked -/

theorem LastListed_mem {zone : List DNSRecord} {r : DNSRecord} (h : LastListed zone r) :
    r ∈ zone :=
  (List.mem_filter.1 (List.mem_of_getLast?_eq_some h)).1

theorem LastListed_append_other {zone : List DNSRecord} {r x : DNSRecord}
    (h : LastListed zone r) (hx : ¬ (x.Name = r.Name ∧ x.Address = r.Address)) :
    LastListed (zone ++ [x]) r := by
  unfold LastListed at *
  rw [List.filter_append]
  have : [x].filter (fun x => x.Name = r.Name ∧ x.Address = r.Address) = [] := by
    rw [List.filter_eq_nil_iff]
    intro y hy
    rw [List.mem_singleton] at hy
    subst hy
    simpa using hx
  rw [this, List.append_nil]
  exact h

theorem LastListed_index {zone : List DNSRecord} {r : DNSRecord} (h : LastListed zone r) :
    index (zone.filter (fun x => x.Name = r.Name)) r.Address = some r := by
  rw [index_eq_getLast?, List.filter_filter]
  unfold LastListed at h
  rw [← h]
  congr 1
  apply List.filter_congr
  intro x _
  simp [Bool.and_comm]

/-- The loop over `addrs` marks the record listed last for its name and address when
the name is `fq` and the address one of `addrs`; otherwise it leaves it the last one. -/
theorem addrServed_last (alloc : List DNSRecord → String) (tag fq : String) (r : DNSRecord)
    (addrs : List String) :
    ∀ (tmp : GoMap DNSRecord) (seen : List String) (zone : List DNSRecord),
      LastListed zone r → (fq = r.Name → tmp r.Address = some r) →
      r.ID ∈ (addrServed alloc tag fq addrs tmp seen zone).2 ∨
        (LastListed (addrServed alloc tag fq addrs tmp seen zone).1 r ∧
          ¬ (fq = r.Name ∧ r.Address ∈ addrs)) := by
  induction addrs with
  | nil =>
    intro tmp seen zone hl _
    simp only [addrServed]
    exact Or.inr ⟨hl, by simp⟩
  | cons addr addrs ih =>
    intro tmp seen zone hl ht
    simp only [addrServed]
    cases htmp : tmp addr with
    | some rec =>
      simp only []
      by_cases hhit : fq = r.Name ∧ addr = r.Address
      · left
        have : rec = r := by
          have := ht hhit.1
          rw [← hhit.2, htmp] at this
          exact Option.some.inj this
        rw [this]
        exact (addrServed_spec alloc tag fq addrs (tmp.erase addr) (r.ID :: seen) zone).2.2.1
          r.ID (List.mem_cons_self _ _)
      · have ht2 : fq = r.Name → (tmp.erase addr) r.Address = some r := by
          intro hfq
          have hne : ¬ r.Address = addr := fun k => hhit ⟨hfq, k.symm⟩
          unfold GoMap.erase
          simp only [hne, if_false]
          exact ht hfq
        rcases ih (tmp.erase addr) (rec.ID :: seen) zone hl ht2 with h | ⟨h1, h2⟩
        · exact Or.inl h
        · refine Or.inr ⟨h1, ?_⟩
          rintro ⟨k1, k2⟩
          rcases List.mem_cons.1 k2 with k2 | k2
          · exact hhit ⟨k1, k2.symm⟩
          · exact h2 ⟨k1, k2⟩
    | none =>
      simp only []
      have hmiss : ¬ (fq = r.Name ∧ addr = r.Address) := by
        rintro ⟨k1, k2⟩
        have := ht k1
        rw [← k2, htmp] at this
        cases this
      have hl2 : LastListed (zone ++ [⟨alloc zone, addr, fq, "", tag⟩]) r :=
        LastListed_append_other hl hmiss
      rcases ih tmp (alloc zone :: seen) _ hl2 ht with h | ⟨h1, h2⟩
      · exact Or.inl h
      · refine Or.inr ⟨h1, ?_⟩
        rintro ⟨k1, k2⟩
        rcases List.mem_cons.1 k2 with k2 | k2
        · exact hmiss ⟨k1, k2.symm⟩
        · exact h2 ⟨k1, k2⟩

/-- The loop over the desired state marks the record listed last for its name and
address when that name and address are desired. -/
theorem nameServed_last (c : Client) (alloc : List DNSRecord → String) (tag : String)
    (r : DNSRecord) (records : List (String × List String)) :
    ∀ (seen : List String) (zone : List DNSRecord),
      LastListed zone r →
      r.ID ∈ (nameServed c alloc tag records seen zone).2 ∨
        (LastListed (nameServed c alloc tag records seen zone).1 r ∧ ¬ Desired c records r) := by
  induction records with
  | nil =>
    intro seen zone hl
    simp only [nameServed]
    refine Or.inr ⟨hl, ?_⟩
    rintro ⟨n, as, h, -⟩
    simp at h
  | cons e rest ih =>
    obtain ⟨name, addrs⟩ := e
    intro seen zone hl
    simp only [nameServed]
    have ht : c.fqdn name = r.Name →
        index (zone.filter (fun x => x.Name = c.fqdn name)) r.Address = some r := by
      intro h
      rw [h]
      exact LastListed_index hl
    have ha := addrServed_last alloc tag (c.fqdn name) r addrs
      (index (zone.filter (fun x => x.Name = c.fqdn name))) seen zone hl ht
    generalize addrServed alloc tag (c.fqdn name) addrs
      (index (zone.filter (fun x => x.Name = c.fqdn name))) seen zone = s at ha
    rcases ha with h | ⟨h1, h2⟩
    · exact Or.inl ((nameServed_spec c alloc tag rest s.2 s.1).2.2.1 r.ID h)
    · rcases ih s.2 s.1 h1 with k | ⟨k1, k2⟩
      · exact Or.inl k
      · refine Or.inr ⟨k1, ?_⟩
        rintro ⟨n, as, j1, j2, j3⟩
        rcases List.mem_cons.1 j1 with j1 | j1
        · cases j1
          exact h2 ⟨j2.symm, j3⟩
        · exact k2 ⟨n, as, j1, j2, j3⟩

/-! ### Counting the marked records of a name and address -/

theorem fqdn_injective (c : Client) {n m : String} (h : c.fqdn n = c.fqdn m) : n = m := by
  unfold Client.fqdn at h
  have h1 := congrArg String.data h
  simp only [String.data_append] at h1
  have h2 := List.append_cancel_right (List.append_cancel_right h1)
  exact String.ext h2

theorem Fresh_ne {alloc : List DNSRecord → String} (hf : Fresh alloc) {zone : List DNSRecord}
    {x : DNSRecord} (hx : x ∈ zone) : x.ID ≠ alloc zone := by
  intro h
  exact hf zone (h ▸ List.mem_map_of_mem DNSRecord.ID hx)

theorem marked_mark_other (N a : String) (seen : List String) (zone : List DNSRecord)
    (rec : DNSRecord) (hu : UniqueIDs zone) (hrec : rec ∈ zone)
    (hne : ¬ (rec.Name = N ∧ rec.Address = a)) :
    marked N a (rec.ID :: seen) zone = marked N a seen zone := by
  unfold marked
  apply List.filter_congr
  intro x hx
  by_cases hid : x.ID = rec.ID
  · have := UniqueIDs_eq hu hx hrec hid
    subst this
    have : ¬ (x.Name = N ∧ x.Address = a) := hne
    by_cases h1 : x.Name = N
    · have h2 : ¬ x.Address = a := fun k => this ⟨h1, k⟩
      simp [h1, h2]
    · simp [h1]
  · simp [hid]

theorem marked_put_other (alloc : List DNSRecord → String) (N a : String) (seen : List String)
    (zone : List DNSRecord) (addr fq tag : String) (hf : Fresh alloc)
    (hne : ¬ (fq = N ∧ addr = a)) :
    marked N a (alloc zone :: seen) (zone ++ [⟨alloc zone, addr, fq, "", tag⟩]) =
      marked N a seen zone := by
  unfold marked
  rw [List.filter_append]
  have h1 : [(⟨alloc zone, addr, fq, "", tag⟩ : DNSRecord)].filter
      (fun x => x.Name = N ∧ x.Address = a ∧ x.ID ∈ alloc zone :: seen) = [] := by
    rw [List.filter_eq_nil_iff]
    intro y hy
    rw [List.mem_singleton] at hy
    subst hy
    by_cases k : fq = N
    · have k2 : ¬ addr = a := fun j => hne ⟨k, j⟩
      simp [k, k2]
    · simp [k]
  rw [h1, List.append_nil]
  apply List.filter_congr
  intro x hx
  have := Fresh_ne hf hx
  simp [this]

theorem marked_mark_target (N a : String) (seen : List String) (zone : List DNSRecord)
    (rec : DNSRecord) (hu : UniqueIDs zone) (hrec : rec ∈ zone)
    (hN : rec.Name = N) (ha : rec.Address = a) (h0 : marked N a seen zone = []) :
    marked N a (rec.ID :: seen) zone = [rec] := by
  have hnd : zone.Nodup := List.Nodup.of_map _ hu
  have h1 : marked N a (rec.ID :: seen) zone = zone.filter (fun x => x = rec) := by
    unfold marked
    apply List.filter_congr
    intro x hx
    unfold marked at h0
    rw [List.filter_eq_nil_iff] at h0
    have hx0 := h0 x hx
    by_cases hid : x.ID = rec.ID
    · have := UniqueIDs_eq hu hx hrec hid
      subst this
      simp [hN, ha]
    · have hxr : ¬ x = rec := fun k => hid (k ▸ rfl)
      simp only [hid, List.mem_cons, false_or, hxr, decide_False]
      simpa using hx0
  rw [h1, List.filter_eq zone rec, List.count_eq_one_of_mem hnd hrec]
  rfl

theorem marked_put_target (alloc : List DNSRecord → String) (N a : String) (seen : List String)
    (zone : List DNSRecord) (tag : String) (hf : Fresh alloc)
    (h0 : marked N a seen zone = []) :
    marked N a (alloc zone :: seen) (zone ++ [⟨alloc zone, a, N, "", tag⟩]) =
      [⟨alloc zone, a, N, "", tag⟩] := by
  unfold marked at *
  rw [List.filter_append]
  have h1 : zone.filter (fun x => x.Name = N ∧ x.Address = a ∧ x.ID ∈ alloc zone :: seen) = [] := by
    rw [← h0]
    apply List.filter_congr
    intro x hx
    have := Fresh_ne hf hx
    simp [this]
  rw [h1]
  simp

/-- The loop over `addrs` leaves the marked records of a name and address alone when
it works on another name or does not list the address. -/
theorem addrServed_marked_other (alloc : List DNSRecord → String) (tag fq N a : String)
    (hf : Fresh alloc) (addrs : List String) :
    ∀ (tmp : GoMap DNSRecord) (seen : List String) (zone : List DNSRecord),
      UniqueIDs zone → TmpIn tmp zone fq → ¬ (fq = N ∧ a ∈ addrs) →
      marked N a (addrServed alloc tag fq addrs tmp seen zone).2
        (addrServed alloc tag fq addrs tmp seen zone).1 = marked N a seen zone := by
  induction addrs with
  | nil =>
    intro tmp seen zone _ _ _
    rfl
  | cons addr addrs ih =>
    intro tmp seen zone hu ht hne
    have hne1 : ¬ (fq = N ∧ addr = a) := fun k => hne ⟨k.1, k.2 ▸ List.mem_cons_self _ _⟩
    have hne2 : ¬ (fq = N ∧ a ∈ addrs) := fun k => hne ⟨k.1, List.mem_cons_of_mem _ k.2⟩
    simp only [addrServed]
    cases htmp : tmp addr with
    | some rec =>
      simp only []
      obtain ⟨j1, j2, j3⟩ := ht addr rec htmp
      rw [ih (tmp.erase addr) (rec.ID :: seen) zone hu (TmpIn_erase ht addr) hne2]
      exact marked_mark_other N a seen zone rec hu j1 (by rw [j2, j3]; exact hne1)
    | none =>
      simp only []
      rw [ih tmp (alloc zone :: seen) _ (UniqueIDs_append_fresh alloc zone _ _ _ _ hf hu)
        (TmpIn_append ht _) hne2]
      exact marked_put_other alloc N a seen zone addr fq tag hf hne1

/-- The loop over `addrs` for the name `N` marks exactly one record with address `a`
when `a` is listed once and none was marked before. -/
theorem addrServed_marked_target (alloc : List DNSRecord → String) (tag N a : String)
    (hf : Fresh alloc) (addrs : List String) :
    ∀ (tmp : GoMap DNSRecord) (seen : List String) (zone : List DNSRecord),
      UniqueIDs zone → TmpIn tmp zone N → addrs.count a = 1 → marked N a seen zone = [] →
      (marked N a (addrServed alloc tag N addrs tmp seen zone).2
        (addrServed alloc tag N addrs tmp seen zone).1).length = 1 := by
  induction addrs with
  | nil =>
    intro tmp seen zone _ _ hc _
    simp at hc
  | cons addr addrs ih =>
    intro tmp seen zone hu ht hc h0
    simp only [addrServed]
    by_cases hadr : addr = a
    · subst hadr
      have hnot : addr ∉ addrs := by
        rw [List.count_cons_self] at hc
        exact List.count_eq_zero.1 (by omega)
      have hne2 : ¬ (N = N ∧ addr ∈ addrs) := fun k => hnot k.2
      cases htmp : tmp addr with
      | some rec =>
        simp only []
        obtain ⟨j1, j2, j3⟩ := ht addr rec htmp
        rw [addrServed_marked_other alloc tag N N addr hf addrs (tmp.erase addr) (rec.ID :: seen)
          zone hu (TmpIn_erase ht addr) hne2,
          marked_mark_target N addr seen zone rec hu j1 j2 j3 h0]
        rfl
      | none =>
        simp only []
        rw [addrServed_marked_other alloc tag N N addr hf addrs tmp (alloc zone :: seen) _
          (UniqueIDs_append_fresh alloc zone _ _ _ _ hf hu) (TmpIn_append ht _) hne2,
          marked_put_target alloc N addr seen zone tag hf h0]
        rfl
    · have hc2 : addrs.count a = 1 := by
        rw [List.count_cons_of_ne (fun k => hadr k.symm)] at hc
        exact hc
      have hne1 : ¬ (N = N ∧ addr = a) := fun k => hadr k.2
      cases htmp : tmp addr with
      | some rec =>
        simp only []
        obtain ⟨j1, j2, j3⟩ := ht addr rec htmp
        refine ih (tmp.erase addr) (rec.ID :: seen) zone hu (TmpIn_erase ht addr) hc2 ?_
        rw [marked_mark_other N a seen zone rec hu j1 (by rw [j2, j3]; exact hne1)]
        exact h0
      | none =>
        simp only []
        refine ih tmp (alloc zone :: seen) _ (UniqueIDs_append_fresh alloc zone _ _ _ _ hf hu)
          (TmpIn_append ht _) hc2 ?_
        rw [marked_put_other alloc N a seen zone addr N tag hf hne1]
        exact h0

/-- The loop over the desired state leaves the marked records of a name alone when the
name is not among the services. -/
theorem nameServed_marked_other (c : Client) (alloc : List DNSRecord → String)
    (tag n a : String) (hf : Fresh alloc) (records : List (String × List String)) :
    ∀ (seen : List String) (zone : List DNSRecord),
      UniqueIDs zone → n ∉ records.map Prod.fst →
      marked (c.fqdn n) a (nameServed c alloc tag records seen zone).2
        (nameServed c alloc tag records seen zone).1 = marked (c.fqdn n) a seen zone := by
  induction records with
  | nil =>
    intro seen zone _ _
    rfl
  | cons e rest ih =>
    obtain ⟨name, addrs⟩ := e
    intro seen zone hu hn
    simp only [List.map_cons, List.mem_cons, not_or] at hn
    simp only [nameServed]
    have hne : ¬ (c.fqdn name = c.fqdn n ∧ a ∈ addrs) :=
      fun k => hn.1 (fqdn_injective c k.1).symm
    have h1 := addrServed_marked_other alloc tag (c.fqdn name) (c.fqdn n) a hf addrs
      (index (zone.filter (fun x => x.Name = c.fqdn name))) seen zone hu
      (TmpIn_index zone _) hne
    have h2 := (addrServed_spec alloc tag (c.fqdn name) addrs
      (index (zone.filter (fun x => x.Name = c.fqdn name))) seen zone).2.1 hf hu
    generalize addrServed alloc tag (c.fqdn name) addrs
      (index (zone.filter (fun x => x.Name = c.fqdn name))) seen zone = s at h1 h2
    rw [ih s.2 s.1 h2 hn.2, h1]

/-- The loop over the desired state marks exactly one record for a desired name and an
address listed once for that name. -/
theorem nameServed_marked_target (c : Client) (alloc : List DNSRecord → String)
    (tag n a : String) (as : List String) (hf : Fresh alloc) (has : as.count a = 1)
    (records : List (String × List String)) :
    ∀ (seen : List String) (zone : List DNSRecord),
      UniqueIDs zone → (records.map Prod.fst).Nodup → (n, as) ∈ records →
      marked (c.fqdn n) a seen zone = [] →
      (marked (c.fqdn n) a (nameServed c alloc tag records seen zone).2
        (nameServed c alloc tag records seen zone).1).length = 1 := by
  induction records with
  | nil =>
    intro seen zone _ _ hmem _
    simp at hmem
  | cons e rest ih =>
    obtain ⟨name, addrs⟩ := e
    intro seen zone hu hnd hmem h0
    simp only [List.map_cons, List.nodup_cons] at hnd
    simp only [nameServed]
    have h2 := (addrServed_spec alloc tag (c.fqdn name) addrs
      (index (zone.filter (fun x => x.Name = c.fqdn name))) seen zone).2.1 hf hu
    rcases List.mem_cons.1 hmem with hmem | hmem
    · cases hmem
      have h1 := addrServed_marked_target alloc tag (c.fqdn n) a hf as
        (index (zone.filter (fun x => x.Name = c.fqdn n))) seen zone hu
        (TmpIn_index zone _) has h0
      generalize addrServed alloc tag (c.fqdn n) as
        (index (zone.filter (fun x => x.Name = c.fqdn n))) seen zone = s at h1 h2
      rw [nameServed_marked_other c alloc tag n a hf rest s.2 s.1 h2 hnd.1]
      exact h1
    · have hname : name ≠ n := by
        intro k
        subst k
        exact hnd.1 (List.mem_map_of_mem Prod.fst hmem)
      have hne : ¬ (c.fqdn name = c.fqdn n ∧ a ∈ addrs) :=
        fun k => hname (fqdn_injective c k.1)
      have h1 := addrServed_marked_other alloc tag (c.fqdn name) (c.fqdn n) a hf addrs
        (index (zone.filter (fun x => x.Name = c.fqdn name))) seen zone hu
        (TmpIn_index zone _) hne
      generalize addrServed alloc tag (c.fqdn name) addrs
        (index (zone.filter (fun x => x.Name = c.fqdn name))) seen zone = s at h1 h2
      exact ih s.2 s.1 h2 hnd.2 hmem (h1 ▸ h0)

/-! ### The zone after a pass against a store that answers every call -/

/-- With distinct identifiers, the pass keeps of the zone built by the loop over the
desired state exactly the records with another comment and those whose identifier is
in `seen`. -/
theorem ReconcileDNS_served_zone (c : Client) (tag : String)
    (records : List (String × List String)) (zone : List DNSRecord)
    (alloc : List DNSRecord → String) (hf : Fresh alloc) (hu : UniqueIDs zone) :
    (ReconcileDNS c tag records (World.init zone alloc [])).1.zone =
      (nameServed c alloc tag records [] zone).1.filter
        (fun x => x.Comment ≠ tag ∨ x.ID ∈ (nameServed c alloc tag records [] zone).2) := by
  rw [(ReconcileDNS_served c tag records zone alloc).2]
  have hum := (nameServed_spec c alloc tag records [] zone).2.1 hf hu
  generalize nameServed c alloc tag records [] zone = m at hum
  apply List.filter_congr
  intro x hx
  have hiff : x.ID ∈ List.map DNSRecord.ID
      (List.filter (fun x => decide (x.ID ∉ m.2)) (List.filter (fun x => decide (x.Comment = tag)) m.1))
      ↔ (x.Comment = tag ∧ x.ID ∉ m.2) := by
    constructor
    · intro hin
      obtain ⟨y, hy, hid⟩ := List.mem_map.1 hin
      rw [List.mem_filter, List.mem_filter] at hy
      have := UniqueIDs_eq hum hy.1.1 hx hid
      subst this
      exact ⟨by simpa using hy.1.2, by simpa using hy.2⟩
    · rintro ⟨h1, h2⟩
      refine List.mem_map.2 ⟨x, ?_, rfl⟩
      rw [List.mem_filter, List.mem_filter]
      exact ⟨⟨hx, by simpa using h1⟩, by simpa using h2⟩
  generalize List.map DNSRecord.ID
      (List.filter (fun x => decide (x.ID ∉ m.2)) (List.filter (fun x => decide (x.Comment = tag)) m.1))
      = gone at hiff
  by_cases h1 : x.Comment = tag <;> by_cases h2 : x.ID ∈ m.2 <;> simp [hiff, h1, h2]

theorem marked_nil (N a : String) (zone : List DNSRecord) : marked N a [] zone = [] := by
  unfold marked
  rw [List.filter_eq_nil_iff]
  intro x _
  simp

/-- One record per desired pair: for a service `n` and an address `a` listed once
for it, when every record of the zone with that name and address carries the tag, the
pass leaves exactly one record with that name, that address and the tag. -/
theorem served_one_record (c : Client) (tag : String)
    (records : List (String × List String)) (zone : List DNSRecord)
    (alloc : List DNSRecord → String) (n a : String) (as : List String)
    (hf : Fresh alloc) (hu : UniqueIDs zone) (hkeys : (records.map Prod.fst).Nodup)
    (hmem : (n, as) ∈ records) (honce : as.count a = 1)
    (hown : ∀ x ∈ zone, x.Name = c.fqdn n → x.Address = a → x.Comment = tag) :
    (ReconcileDNS c tag records (World.init zone alloc [])).2 = .ret none ∧
    ((ReconcileDNS c tag records (World.init zone alloc [])).1.zone.filter
      (fun x => x.Name = c.fqdn n ∧ x.Address = a ∧ x.Comment = tag)).length = 1 := by
  refine ⟨(ReconcileDNS_served c tag records zone alloc).1, ?_⟩
  rw [ReconcileDNS_served_zone c tag records zone alloc hf hu, List.filter_filter]
  have hcount := nameServed_marked_target c alloc tag n a as hf honce records [] zone hu hkeys
    hmem (marked_nil _ _ _)
  obtain ⟨⟨created, hz, hcr⟩, -⟩ := nameServed_spec c alloc tag records [] zone
  generalize nameServed c alloc tag records [] zone = m at hcount hz
  rw [← hcount]
  unfold marked
  congr 1
  apply List.filter_congr
  intro x hx
  by_cases hN : x.Name = c.fqdn n
  · by_cases ha : x.Address = a
    · have ht : x.Comment = tag := by
        rw [hz] at hx
        rcases List.mem_append.1 hx with hx | hx
        · exact hown x hx hN ha
        · exact (hcr x hx).1
      simp [hN, ha, ht]
    · simp [hN, ha]
  · simp [hN]

/-- What the pass removes and what it keeps: a record with the tag and a name and
address that are not desired goes; a record with a desired name and address that is the
last one listed with them stays. -/
theorem served_prunes (c : Client) (tag : String)
    (records : List (String × List String)) (zone : List DNSRecord)
    (alloc : List DNSRecord → String) (hf : Fresh alloc) (hu : UniqueIDs zone) :
    (ReconcileDNS c tag records (World.init zone alloc [])).2 = .ret none ∧
    (∀ r ∈ zone, r.Comment = tag → ¬ Desired c records r →
      r ∉ (ReconcileDNS c tag records (World.init zone alloc [])).1.zone) ∧
    (∀ r ∈ zone, Desired c records r → LastListed zone r →
      r ∈ (ReconcileDNS c tag records (World.init zone alloc [])).1.zone) := by
  refine ⟨(ReconcileDNS_served c tag records zone alloc).1, ?_, ?_⟩
  · intro r hr ht hnd hin
    rw [ReconcileDNS_served_zone c tag records zone alloc hf hu, List.mem_filter] at hin
    obtain ⟨⟨created, hz, -⟩, hum, -, hseen⟩ := nameServed_spec c alloc tag records [] zone
    replace hum := hum hf hu
    have hid : r.ID ∈ (nameServed c alloc tag records [] zone).2 := by
      simpa [ht] using hin.2
    rcases hseen r.ID hid with h | ⟨y, h1, h2, h3⟩
    · simp at h
    · have := UniqueIDs_eq hum h1 hin.1 h2
      exact hnd (this ▸ h3)
  · intro r hr hd hl
    rw [ReconcileDNS_served_zone c tag records zone alloc hf hu, List.mem_filter]
    obtain ⟨⟨created, hz, -⟩, -⟩ := nameServed_spec c alloc tag records [] zone
    refine ⟨by rw [hz]; exact List.mem_append_left _ hr, ?_⟩
    rcases nameServed_last c alloc tag r records [] zone hl with h | ⟨-, h⟩
    · simp [h]
    · exact absurd hd h

/-! ### Exact convergence -/

theorem mem_desiredPairs (c : Client) (records : List (String × List String)) (x : DNSRecord) :
    (x.Name, x.Address) ∈ desiredPairs c records ↔ Desired c records x := by
  unfold desiredPairs Desired
  simp only [List.mem_flatMap, List.mem_map, Prod.mk.injEq, Prod.exists]
  constructor
  · rintro ⟨n, as, h1, a, h2, h3, h4⟩
    exact ⟨n, as, h1, h3.symm, h4 ▸ h2⟩
  · rintro ⟨n, as, h1, h2, h3⟩
    exact ⟨n, as, h1, x.Address, h3, h2.symm, rfl⟩

theorem desiredPairs_nodup (c : Client) (records : List (String × List String))
    (hkeys : (records.map Prod.fst).Nodup) (hnodup : ∀ e ∈ records, e.2.Nodup) :
    (desiredPairs c records).Nodup := by
  unfold desiredPairs
  rw [List.nodup_flatMap]
  refine ⟨?_, ?_⟩
  · intro e he
    refine List.Nodup.map ?_ (hnodup e he)
    intro a b hab
    exact (Prod.mk.inj hab).2
  · have hp : List.Pairwise (fun a b : String × List String => a.1 ≠ b.1) records :=
      (List.pairwise_map).1 hkeys
    refine List.Pairwise.imp ?_ hp
    intro e1 e2 hne
    show List.Disjoint _ _
    intro p h1 h2
    obtain ⟨a1, -, k1⟩ := List.mem_map.1 h1
    obtain ⟨a2, -, k2⟩ := List.mem_map.1 h2
    rw [← k2] at k1
    exact hne (fqdn_injective c (Prod.mk.inj k1).1)

theorem count_map_filter {α : Type} [DecidableEq α] (f : DNSRecord → α)
    (p : DNSRecord → Bool) (v : α) (zone : List DNSRecord) :
    List.count v ((zone.filter p).map f) =
      (zone.filter (fun x => p x && decide (f x = v))).length := by
  induction zone with
  | nil => rfl
  | cons x rest ih =>
    by_cases hp : p x = true
    · rw [List.filter_cons_of_pos hp, List.map_cons, List.count_cons, ih]
      by_cases hv : f x = v
      · have hq : (p x && decide (f x = v)) = true := by simp [hp, hv]
        have hcons : (x :: rest).filter (fun x => p x && decide (f x = v)) =
            x :: rest.filter (fun x => p x && decide (f x = v)) := List.filter_cons_of_pos hq
        rw [hcons, List.length_cons, if_pos (by simp [hv])]
      · have hq : ¬ (p x && decide (f x = v)) = true := by simp [hv]
        have hcons : (x :: rest).filter (fun x => p x && decide (f x = v)) =
            rest.filter (fun x => p x && decide (f x = v)) := List.filter_cons_of_neg hq
        rw [hcons, if_neg (by simp [hv]), Nat.add_zero]
    · have hq : ¬ (p x && decide (f x = v)) = true := by simp [hp]
      have hcons : (x :: rest).filter (fun x => p x && decide (f x = v)) =
          rest.filter (fun x => p x && decide (f x = v)) := List.filter_cons_of_neg hq
      rw [List.filter_cons_of_neg hp, hcons]
      exact ih

theorem count_zero_of_not_mem {α : Type} [DecidableEq α] {l : List α} {v : α} (h : v ∉ l) :
    List.count v l = 0 :=
  List.count_eq_zero.2 h

theorem pairs_filter (tag N a : String) (zone : List DNSRecord) :
    zone.filter (fun x => decide (x.Comment = tag) && decide ((x.Name, x.Address) = (N, a))) =
      zone.filter (fun x => x.Name = N ∧ x.Address = a ∧ x.Comment = tag) := by
  apply List.filter_congr
  intro x _
  by_cases ht : x.Comment = tag <;> by_cases hN : x.Name = N <;> by_cases ha : x.Address = a <;>
    simp [ht, hN, ha]

/-- C2 as the code has it. Against a store that answers every call (distinct
identifiers, never one in use handed out again), for a service `n` of the desired state
and an address `a` listed once for it, if no record of the zone with the name
`n + "." + domain` and the address `a` carries another comment than the tag, then
`ReconcileDNS` returns nil and the zone afterwards has exactly one record with that
name, that address and the tag. -/
theorem ReconcileDNS_converges (c : Client) (tag : String)
    (records : List (String × List String)) (zone : List DNSRecord)
    (alloc : List DNSRecord → String) (n a : String) (as : List String)
    (hf : Fresh alloc) (hu : UniqueIDs zone) (hkeys : (records.map Prod.fst).Nodup)
    (hmem : (n, as) ∈ records) (honce : as.count a = 1)
    (hown : ∀ x ∈ zone, x.Name = c.fqdn n → x.Address = a → x.Comment = tag) :
    (ReconcileDNS c tag records (World.init zone alloc [])).2 = .ret none ∧
    ((ReconcileDNS c tag records (World.init zone alloc [])).1.zone.filter
      (fun x => x.Name = c.fqdn n ∧ x.Address = a ∧ x.Comment = tag)).length = 1 :=
  served_one_record c tag records zone alloc n a as hf hu hkeys hmem honce hown

/-- C3 as the code has it. Against a store that answers every call (distinct
identifiers, never one in use handed out again) `ReconcileDNS` returns nil, and (1)
every record of the zone before the pass that carries the tag and whose name and address
are not desired is absent afterwards; (2) every record of the zone before the pass whose
name and address are desired and which is the last record listed with that name and
address is in the zone afterwards, unchanged. -/
theorem ReconcileDNS_prunes (c : Client) (tag : String)
    (records : List (String × List String)) (zone : List DNSRecord)
    (alloc : List DNSRecord → String) (hf : Fresh alloc) (hu : UniqueIDs zone) :
    (ReconcileDNS c tag records (World.init zone alloc [])).2 = .ret none ∧
    (∀ r ∈ zone, r.Comment = tag → ¬ Desired c records r →
      r ∉ (ReconcileDNS c tag records (World.init zone alloc [])).1.zone) ∧
    (∀ r ∈ zone, Desired c records r → LastListed zone r →
      r ∈ (ReconcileDNS c tag records (World.init zone alloc [])).1.zone) :=
  served_prunes c tag records zone alloc hf hu

/-- C10. Exact convergence under clean preconditions: the desired state lists no
address twice for a service, the identifiers of the zone are pairwise distinct, every
record of the zone named `n + "." + domain` for a desired `n` carries the tag `t`, and
the store answers every call (exact-match listing in zone order, each create under an
identifier not in use). Then `ReconcileDNS` returns nil; the name and address pairs of
the records with comment `t` afterwards are, up to order, exactly the desired pairs, each
once; and a record of the zone before the pass with a desired name and address is in
the zone afterwards exactly when it is the last one listed with that name and address. -/
theorem ReconcileDNS_exact_convergence (c : Client) (tag : String)
    (records : List (String × List String)) (zone : List DNSRecord)
    (alloc : List DNSRecord → String)
    (hf : Fresh alloc) (hu : UniqueIDs zone) (hkeys : (records.map Prod.fst).Nodup)
    (hnodup : ∀ e ∈ records, e.2.Nodup)
    (hown : ∀ x ∈ zone, ∀ e ∈ records, x.Name = c.fqdn e.1 → x.Comment = tag) :
    (ReconcileDNS c tag records (World.init zone alloc [])).2 = .ret none ∧
    List.Perm
      (((ReconcileDNS c tag records (World.init zone alloc [])).1.zone.filter
        (fun x => x.Comment = tag)).map (fun x => (x.Name, x.Address)))
      (desiredPairs c records) ∧
    (∀ r ∈ zone, Desired c records r →
      (r ∈ (ReconcileDNS c tag records (World.init zone alloc [])).1.zone ↔ LastListed zone r)) := by
  have hone : ∀ n as a, (n, as) ∈ records → a ∈ as →
      ((ReconcileDNS c tag records (World.init zone alloc [])).1.zone.filter
        (fun x => x.Name = c.fqdn n ∧ x.Address = a ∧ x.Comment = tag)).length = 1 := by
    intro n as a hmem ha
    exact (served_one_record c tag records zone alloc n a as hf hu hkeys hmem
      (List.count_eq_one_of_mem (hnodup _ hmem) ha)
      (fun x hx hN _ => hown x hx (n, as) hmem hN)).2
  obtain ⟨hret, -, hkeep⟩ := served_prunes c tag records zone alloc hf hu
  refine ⟨hret, ?_, ?_⟩
  · rw [List.perm_iff_count]
    rintro ⟨N, a⟩
    rw [count_map_filter, pairs_filter]
    by_cases hp : (N, a) ∈ desiredPairs c records
    · rw [List.count_eq_one_of_mem (desiredPairs_nodup c records hkeys hnodup) hp]
      unfold desiredPairs at hp
      simp only [List.mem_flatMap, List.mem_map, Prod.mk.injEq, Prod.exists] at hp
      obtain ⟨n, as, h1, a1, h2, h3, h4⟩ := hp
      subst h3; subst h4
      exact hone n as a1 h1 h2
    · rw [count_zero_of_not_mem hp, List.length_eq_zero,
        List.filter_eq_nil_iff]
      intro x hx hx2
      simp only [decide_eq_true_eq] at hx2
      obtain ⟨hN, ha, ht⟩ := hx2
      rw [ReconcileDNS_served_zone c tag records zone alloc hf hu, List.mem_filter] at hx
      obtain ⟨-, hum, -, hseen⟩ := nameServed_spec c alloc tag records [] zone
      replace hum := hum hf hu
      have hid : x.ID ∈ (nameServed c alloc tag records [] zone).2 := by
        simpa [ht] using hx.2
      rcases hseen x.ID hid with h | ⟨y, k1, k2, k3⟩
      · simp at h
      · have := UniqueIDs_eq hum k1 hx.1 k2
        subst this
        apply hp
        rw [← hN, ← ha]
        exact (mem_desiredPairs c records y).2 k3
  · intro r hr hd
    refine ⟨?_, hkeep r hr hd⟩
    intro hin
    obtain ⟨n, as, h1, h2, h3⟩ := hd
    have hne : zone.filter (fun x => x.Name = r.Name ∧ x.Address = r.Address) ≠ [] := by
      intro k
      rw [List.filter_eq_nil_iff] at k
      exact k r hr (by simp)
    obtain ⟨r1, hr1⟩ := Option.isSome_iff_exists.1 (List.getLast?_isSome.2 hne)
    have hmem1 := List.mem_filter.1 (List.mem_of_getLast?_eq_some hr1)
    have hr1N : r1.Name = r.Name := by simpa using (And.left (by simpa using hmem1.2))
    have hr1a : r1.Address = r.Address := by simpa using (And.right (by simpa using hmem1.2))
    have hl1 : LastListed zone r1 := by
      unfold LastListed
      rw [hr1N, hr1a]
      exact hr1
    have hin1 := hkeep r1 hmem1.1 ⟨n, as, h1, hr1N.trans h2, hr1a ▸ h3⟩ hl1
    have hlen := hone n as r.Address h1 h3
    obtain ⟨y, hy⟩ := List.length_eq_one.1 hlen
    have ha : r ∈ (ReconcileDNS c tag records (World.init zone alloc [])).1.zone.filter
        (fun x => x.Name = c.fqdn n ∧ x.Address = r.Address ∧ x.Comment = tag) := by
      rw [List.mem_filter]
      exact ⟨hin, by simpa using ⟨h2, hown r hr (n, as) h1 h2⟩⟩
    have hb : r1 ∈ (ReconcileDNS c tag records (World.init zone alloc [])).1.zone.filter
        (fun x => x.Name = c.fqdn n ∧ x.Address = r.Address ∧ x.Comment = tag) := by
      rw [List.mem_filter]
      exact ⟨hin1, by simpa using ⟨hr1N.trans h2, hr1a, hown r1 hmem1.1 (n, as) h1 (hr1N.trans h2)⟩⟩
    rw [hy, List.mem_singleton] at ha hb
    rw [ha, ← hb]
    exact hl1

/-! ### A second pass over an unchanged desired state without duplicates -/

theorem LastListed_append_self (zone : List DNSRecord) (x : DNSRecord) :
    LastListed (zone ++ [x]) x := by
  unfold LastListed
  rw [List.filter_append]
  have : [x].filter (fun y => y.Name = x.Name ∧ y.Address = x.Address) = [x] := by
    simp
  rw [this, List.getLast?_concat]

theorem getLast?_filter_of_pos {l : List DNSRecord} {x : DNSRecord} (p : DNSRecord → Bool)
    (h : l.getLast? = some x) (hp : p x = true) : (l.filter p).getLast? = some x := by
  induction l using List.reverseRecOn with
  | nil => simp at h
  | append_singleton init y _ =>
    rw [List.getLast?_concat] at h
    have hy : y = x := Option.some.inj h
    subst hy
    rw [List.filter_append, List.filter_cons_of_pos hp, List.filter_nil, List.getLast?_concat]

theorem LastListed_filter {zone : List DNSRecord} {x : DNSRecord} (p : DNSRecord → Bool)
    (h : LastListed zone x) (hp : p x = true) : LastListed (zone.filter p) x := by
  unfold LastListed at *
  rw [List.filter_filter]
  have := getLast?_filter_of_pos p h hp
  rw [List.filter_filter] at this
  rw [← this]
  congr 1
  apply List.filter_congr
  intro y _
  exact Bool.and_comm _ _

theorem TmpLast_index (zone : List DNSRecord) (fq : String) :
    TmpLast (index (zone.filter (fun x => x.Name = fq))) zone fq := by
  intro a rec h
  obtain ⟨h1, h2, h3⟩ := TmpIn_index zone fq a rec h
  refine ⟨h1, h2, h3, ?_⟩
  rw [index_eq_getLast?, List.filter_filter] at h
  unfold LastListed
  rw [← h, h2, h3]
  congr 1
  apply List.filter_congr
  intro x _
  simp [Bool.and_comm]

theorem TmpLast_TmpIn {tmp : GoMap DNSRecord} {zone : List DNSRecord} {fq : String}
    (h : TmpLast tmp zone fq) : TmpIn tmp zone fq :=
  fun a rec k => ⟨(h a rec k).1, (h a rec k).2.1, (h a rec k).2.2.1⟩

theorem TmpLast_erase {tmp : GoMap DNSRecord} {zone : List DNSRecord} {fq : String}
    (h : TmpLast tmp zone fq) (addr : String) : TmpLast (tmp.erase addr) zone fq := by
  intro a rec ha
  unfold GoMap.erase at ha
  by_cases k : a = addr
  · simp [k] at ha
  · simp only [k, if_false] at ha
    exact h a rec ha

theorem mem_marked {N a : String} {seen : List String} {zone : List DNSRecord} {x : DNSRecord}
    (hx : x ∈ zone) (hN : x.Name = N) (ha : x.Address = a) (hs : x.ID ∈ seen) :
    x ∈ marked N a seen zone := by
  unfold marked
  rw [List.mem_filter]
  exact ⟨hx, by simpa using ⟨hN, ha, hs⟩⟩

/-- The loop over `addrs`, when it lists no address twice and has marked no record
for any of them yet, keeps every marked record the last one listed with its name and
address. -/
theorem addrServed_seenLast (alloc : List DNSRecord → String) (tag fq : String)
    (hf : Fresh alloc) (addrs : List String) :
    ∀ (tmp : GoMap DNSRecord) (seen : List String) (zone : List DNSRecord),
      UniqueIDs zone → TmpLast tmp zone fq → addrs.Nodup →
      (∀ a ∈ addrs, marked fq a seen zone = []) → SeenLast zone seen →
      SeenLast (addrServed alloc tag fq addrs tmp seen zone).1
        (addrServed alloc tag fq addrs tmp seen zone).2 := by
  induction addrs with
  | nil =>
    intro tmp seen zone _ _ _ _ hi
    exact hi
  | cons addr addrs ih =>
    intro tmp seen zone hu ht hnd hj hi
    rw [List.nodup_cons] at hnd
    simp only [addrServed]
    cases htmp : tmp addr with
    | some rec =>
      simp only []
      obtain ⟨j1, j2, j3, j4⟩ := ht addr rec htmp
      refine ih (tmp.erase addr) (rec.ID :: seen) zone hu (TmpLast_erase ht addr) hnd.2 ?_ ?_
      · intro a ha
        have hne : ¬ (rec.Name = fq ∧ rec.Address = a) := by
          rintro ⟨-, k⟩
          rw [j3] at k
          exact hnd.1 (k ▸ ha)
        rw [marked_mark_other fq a seen zone rec hu j1 hne]
        exact hj a (List.mem_cons_of_mem _ ha)
      · intro x hx hs
        rcases List.mem_cons.1 hs with hs | hs
        · rw [UniqueIDs_eq hu hx j1 hs]
          exact j4
        · exact hi x hx hs
    | none =>
      simp only []
      have hu2 := UniqueIDs_append_fresh alloc zone addr fq "" tag hf hu
      refine ih tmp (alloc zone :: seen) _ hu2 ?_ hnd.2 ?_ ?_
      · intro a rec ha
        obtain ⟨j1, j2, j3, j4⟩ := ht a rec ha
        refine ⟨List.mem_append_left _ j1, j2, j3, LastListed_append_other j4 ?_⟩
        rintro ⟨-, k⟩
        simp only at k
        rw [j3] at k
        rw [k, ha] at htmp
        cases htmp
      · intro a ha
        have hne : ¬ (fq = fq ∧ addr = a) := by
          rintro ⟨-, k⟩
          exact hnd.1 (k ▸ ha)
        rw [marked_put_other alloc fq a seen zone addr fq tag hf hne]
        exact hj a (List.mem_cons_of_mem _ ha)
      · intro x hx hs
        rcases List.mem_append.1 hx with hx | hx
        · have hs2 : x.ID ∈ seen := by
            rcases List.mem_cons.1 hs with hs | hs
            · exact absurd hs (Fresh_ne hf hx)
            · exact hs
          refine LastListed_append_other (hi x hx hs2) ?_
          rintro ⟨k1, k2⟩
          simp only at k1 k2
          have := mem_marked hx k1.symm k2.symm hs2
          rw [hj addr (List.mem_cons_self _ _)] at this
          simp at this
        · rw [List.mem_singleton] at hx
          rw [hx]
          exact LastListed_append_self zone _

/-- The loop over the desired state, when no service is listed twice and no address
twice for a service, keeps every marked record the last one listed with its name and
address. -/
theorem nameServed_seenLast (c : Client) (alloc : List DNSRecord → String) (tag : String)
    (hf : Fresh alloc) (records : List (String × List String)) :
    ∀ (seen : List String) (zone : List DNSRecord),
      UniqueIDs zone → (records.map Prod.fst).Nodup → (∀ e ∈ records, e.2.Nodup) →
      (∀ e ∈ records, ∀ a ∈ e.2, marked (c.fqdn e.1) a seen zone = []) → SeenLast zone seen →
      SeenLast (nameServed c alloc tag records seen zone).1
        (nameServed c alloc tag records seen zone).2 := by
  induction records with
  | nil =>
    intro seen zone _ _ _ _ hi
    exact hi
  | cons e rest ih =>
    obtain ⟨name, addrs⟩ := e
    intro seen zone hu hkeys hnd hj hi
    simp only [List.map_cons, List.nodup_cons] at hkeys
    simp only [nameServed]
    have h1 := addrServed_seenLast alloc tag (c.fqdn name) hf addrs
      (index (zone.filter (fun x => x.Name = c.fqdn name))) seen zone hu
      (TmpLast_index zone _) (hnd _ (List.mem_cons_self _ _))
      (hj (name, addrs) (List.mem_cons_self _ _)) hi
    have h2 := (addrServed_spec alloc tag (c.fqdn name) addrs
      (index (zone.filter (fun x => x.Name = c.fqdn name))) seen zone).2.1 hf hu
    have h3 : ∀ e ∈ rest, ∀ a ∈ e.2,
        marked (c.fqdn e.1) a
          (addrServed alloc tag (c.fqdn name) addrs
            (index (zone.filter (fun x => x.Name = c.fqdn name))) seen zone).2
          (addrServed alloc tag (c.fqdn name) addrs
            (index (zone.filter (fun x => x.Name = c.fqdn name))) seen zone).1 = [] := by
      intro e he a ha
      have hne : ¬ (c.fqdn name = c.fqdn e.1 ∧ a ∈ addrs) := by
        rintro ⟨k, -⟩
        have := fqdn_injective c k
        exact hkeys.1 (this ▸ List.mem_map_of_mem Prod.fst he)
      rw [addrServed_marked_other alloc tag (c.fqdn name) (c.fqdn e.1) a hf addrs
        (index (zone.filter (fun x => x.Name = c.fqdn name))) seen zone hu
        (TmpIn_index zone _) hne]
      exact hj e (List.mem_cons_of_mem _ he) a ha
    generalize addrServed alloc tag (c.fqdn name) addrs
      (index (zone.filter (fun x => x.Name = c.fqdn name))) seen zone = s at h1 h2 h3
    exact ih s.2 s.1 h2 hkeys.2 (fun e he => hnd e (List.mem_cons_of_mem _ he)) h3 h1

theorem addrLoop_quiet (c : Client) (tag name : String) (addrs : List String) :
    ∀ (tmp : GoMap DNSRecord) (seen : List String) (w : World),
      addrs.Nodup → (∀ a ∈ addrs, tmp a ≠ none) →
      (addrLoop c tag name addrs tmp seen w).1 = w := by
  induction addrs with
  | nil =>
    intro tmp seen w _ _
    rfl
  | cons addr addrs ih =>
    intro tmp seen w hnd hall
    rw [List.nodup_cons] at hnd
    simp only [addrLoop]
    cases htmp : tmp addr with
    | none => exact absurd htmp (hall addr (List.mem_cons_self _ _))
    | some rec =>
      simp only []
      refine ih (tmp.erase addr) (rec.ID :: seen) w hnd.2 ?_
      intro a ha
      have hne : ¬ a = addr := fun k => hnd.1 (k ▸ ha)
      unfold GoMap.erase
      simp only [hne, if_false]
      exact hall a (List.mem_cons_of_mem _ ha)

theorem index_ne_none {zone : List DNSRecord} {fq a : String} {x : DNSRecord}
    (hx : x ∈ zone) (hN : x.Name = fq) (ha : x.Address = a) :
    index (zone.filter (fun x => x.Name = fq)) a ≠ none := by
  rw [index_eq_getLast?, Ne, List.getLast?_eq_none_iff, List.filter_eq_nil_iff]
  intro h
  have h1 : x ∈ zone.filter (fun x => x.Name = fq) := by
    rw [List.mem_filter]
    exact ⟨hx, by simpa using hN⟩
  have := h x h1
  simp [ha] at this

/-- The loop over the desired state makes only lookups and leaves the zone alone when
the store answers every call, no address is listed twice for a service, and the zone
has a record for every desired name and address. -/
theorem nameLoop_quiet (c : Client) (tag : String) (records : List (String × List String)) :
    ∀ (seen : List String) (w : World), w.plan = [] →
      (∀ e ∈ records, e.2.Nodup ∧
        ∀ a ∈ e.2, ∃ x ∈ w.zone, x.Name = c.fqdn e.1 ∧ x.Address = a) →
      (nameLoop c tag records seen w).1.zone = w.zone ∧
      ∃ t, (nameLoop c tag records seen w).1.log = w.log ++ t ∧
        ∀ call ∈ t, ∃ k v rs e, call = Call.GetRecord k v rs e := by
  induction records with
  | nil =>
    intro seen w _ _
    exact ⟨rfl, [], by simp [nameLoop], by simp⟩
  | cons e rest ih =>
    obtain ⟨name, addrs⟩ := e
    intro seen w hp hall
    simp only [nameLoop]
    obtain ⟨g1, g2, -, g4⟩ := GetRecord_served c "name" (c.fqdn name) w hp
    obtain ⟨-, -, g5, -⟩ := GetRecord_spec c "name" (c.fqdn name) w
    simp only [field_name] at g4
    generalize GetRecord c "name" (c.fqdn name) w = g at g1 g2 g4 g5
    obtain ⟨hnd, hex⟩ := hall (name, addrs) (List.mem_cons_self _ _)
    have hq := addrLoop_quiet c tag name addrs (index g.2.1) seen g.1 hnd (by
      intro a ha
      obtain ⟨x, hx, hN, hA⟩ := hex a ha
      rw [g4]
      exact index_ne_none hx hN hA)
    have hs := (addrLoop_served c tag name addrs (index g.2.1) seen g.1 g1).2.2.1
    generalize addrLoop c tag name addrs (index g.2.1) seen g.1 = r at hq hs
    rw [hs]
    simp only []
    rw [hq]
    obtain ⟨k1, t, k2, k3⟩ := ih r.2.1 g.1 g1 (by
      intro e he
      rw [g2]
      exact hall e (List.mem_cons_of_mem _ he))
    refine ⟨k1.trans g2, Call.GetRecord "name" (c.fqdn name) g.2.1 g.2.2 :: t, ?_, ?_⟩
    · rw [k2, g5]; simp
    · intro call hc
      rcases List.mem_cons.1 hc with hc | hc
      · exact ⟨_, _, _, _, hc⟩
      · exact k3 call hc

theorem pruneLoop_quiet (c : Client) (remaining : List DNSRecord) (seen : List String)
    (w : World) (h : ∀ rec ∈ remaining, rec.ID ∈ seen) :
    pruneLoop c remaining seen w = (w, .ret none) := by
  induction remaining with
  | nil => rfl
  | cons rec rest ih =>
    simp only [pruneLoop, h rec (List.mem_cons_self _ _), if_true]
    exact ih (fun x hx => h x (List.mem_cons_of_mem _ hx))

/-- A second pass is quiet when the desired state lists no address twice. Against a
store that answers every call (distinct identifiers, never one in use handed out
again), with no address listed twice for a service, running `ReconcileDNS` again on the
zone the first pass left returns nil, makes only `GetRecord` calls (no `PutRecord`, no
`DelRecord`) and leaves that zone as it is. -/
theorem ReconcileDNS_second_pass_quiet_of_nodup (c : Client) (tag : String)
    (records : List (String × List String)) (zone : List DNSRecord)
    (alloc : List DNSRecord → String)
    (hf : Fresh alloc) (hu : UniqueIDs zone) (hkeys : (records.map Prod.fst).Nodup)
    (hnodup : ∀ e ∈ records, e.2.Nodup) :
    (ReconcileDNS c tag records (World.init
      (ReconcileDNS c tag records (World.init zone alloc [])).1.zone alloc [])).2 = .ret none ∧
    (∀ call ∈ (ReconcileDNS c tag records (World.init
        (ReconcileDNS c tag records (World.init zone alloc [])).1.zone alloc [])).1.log,
      ∃ k v rs e, call = Call.GetRecord k v rs e) ∧
    (ReconcileDNS c tag records (World.init
      (ReconcileDNS c tag records (World.init zone alloc [])).1.zone alloc [])).1.zone =
      (ReconcileDNS c tag records (World.init zone alloc [])).1.zone := by
  have hz1 := ReconcileDNS_served_zone c tag records zone alloc hf hu
  obtain ⟨-, hum, -, hseen⟩ := nameServed_spec c alloc tag records [] zone
  replace hum := hum hf hu
  have hlast := nameServed_seenLast c alloc tag hf records [] zone hu hkeys hnodup
    (fun _ _ _ _ => marked_nil _ _ _) (fun _ _ h => by simp at h)
  have hmark : ∀ e ∈ records, ∀ a ∈ e.2,
      (marked (c.fqdn e.1) a (nameServed c alloc tag records [] zone).2
        (nameServed c alloc tag records [] zone).1).length = 1 := by
    rintro ⟨n, as⟩ he a ha
    exact nameServed_marked_target c alloc tag n a as hf
      (List.count_eq_one_of_mem (hnodup _ he) ha) records [] zone hu hkeys he (marked_nil _ _ _)
  generalize nameServed c alloc tag records [] zone = m at hz1 hum hseen hlast hmark
  generalize (ReconcileDNS c tag records (World.init zone alloc [])).1.zone = z1 at hz1
  subst hz1
  -- the zone the first pass left has a record for every desired name and address
  have hhas : ∀ e ∈ records, e.2.Nodup ∧ ∀ a ∈ e.2,
      ∃ x ∈ m.1.filter (fun x => x.Comment ≠ tag ∨ x.ID ∈ m.2),
        x.Name = c.fqdn e.1 ∧ x.Address = a := by
    intro e he
    refine ⟨hnodup e he, ?_⟩
    intro a ha
    obtain ⟨x, hx⟩ := List.length_eq_one.1 (hmark e he a ha)
    have hxm : x ∈ marked (c.fqdn e.1) a m.2 m.1 := by rw [hx]; exact List.mem_singleton.2 rfl
    unfold marked at hxm
    rw [List.mem_filter] at hxm
    have hx2 : x.Name = c.fqdn e.1 ∧ x.Address = a ∧ x.ID ∈ m.2 := by simpa using hxm.2
    refine ⟨x, ?_, hx2.1, hx2.2.1⟩
    rw [List.mem_filter]
    exact ⟨hxm.1, by simp [hx2.2.2]⟩
  -- every tagged record of that zone is marked by the second pass
  have hmarked2 : ∀ rec ∈ (m.1.filter (fun x => x.Comment ≠ tag ∨ x.ID ∈ m.2)).filter
        (fun x => x.Comment = tag),
      rec.ID ∈ (nameServed c alloc tag records []
        (m.1.filter (fun x => x.Comment ≠ tag ∨ x.ID ∈ m.2))).2 := by
    intro rec hrec
    rw [List.mem_filter, List.mem_filter] at hrec
    obtain ⟨⟨h1, h2⟩, h3⟩ := hrec
    have ht : rec.Comment = tag := by simpa using h3
    have hid : rec.ID ∈ m.2 := by simpa [ht] using h2
    have hd : Desired c records rec := by
      rcases hseen rec.ID hid with h | ⟨y, k1, k2, k3⟩
      · simp at h
      · rw [← UniqueIDs_eq hum k1 h1 k2]
        exact k3
    have hl : LastListed (m.1.filter (fun x => x.Comment ≠ tag ∨ x.ID ∈ m.2)) rec :=
      LastListed_filter _ (hlast rec h1 hid) h2
    rcases nameServed_last c alloc tag rec records []
      (m.1.filter (fun x => x.Comment ≠ tag ∨ x.ID ∈ m.2)) hl with h | ⟨-, h⟩
    · exact h
    · exact absurd hd h
  generalize m.1.filter (fun x => x.Comment ≠ tag ∨ x.ID ∈ m.2) = z1 at hhas hmarked2
  obtain ⟨n1, -, n3, -, n5⟩ := nameLoop_served c tag records [] (World.init z1 alloc []) rfl
  obtain ⟨q1, t, q2, q3⟩ := nameLoop_quiet c tag records [] (World.init z1 alloc []) rfl hhas
  rcases ReconcileDNS_eq c tag records (World.init z1 alloc []) with ⟨hne, -⟩ | ⟨-, heq⟩
  · exact absurd n3 hne
  · rw [heq]
    obtain ⟨-, g2, -, g4⟩ := GetRecord_served c "comment" tag
      (nameLoop c tag records [] (World.init z1 alloc [])).1 n1
    obtain ⟨-, -, g5, -⟩ := GetRecord_spec c "comment" tag
      (nameLoop c tag records [] (World.init z1 alloc [])).1
    simp only [field_comment] at g4
    generalize GetRecord c "comment" tag
      (nameLoop c tag records [] (World.init z1 alloc [])).1 = g at g2 g4 g5
    rw [pruneLoop_quiet c g.2.1 _ g.1 (by
      intro rec hrec
      rw [g4, q1] at hrec
      rw [n5]
      exact hmarked2 rec hrec)]
    refine ⟨rfl, ?_, ?_⟩
    · intro call hc
      simp only [] at hc
      rw [g5, q2] at hc
      rcases List.mem_append.1 hc with hc | hc
      · rcases List.mem_append.1 hc with hc | hc
        · simp [World.init] at hc
        · exact q3 call hc
      · rw [List.mem_singleton] at hc
        exact ⟨_, _, _, _, hc⟩
    · show g.1.zone = z1
      rw [g2, q1]
      rfl

/-! ## The code run on concrete worlds -/

/-- C1, the code at a failing input. The desired state lists `10.0.0.1` twice for
`web` (two instances on one host), the zone is empty and the store answers every call.
The first pass leaves two records. The second pass, with the desired state unchanged,
makes one `PutRecord` call and one `DelRecord` call, and leaves another zone than the
first pass did. -/
theorem ReconcileDNS_second_pass_not_quiet :
    (ReconcileDNS lan "t" webTwice (World.init [] starAlloc [])).1.zone =
      [⟨"*", "10.0.0.1", "web.lan", "", "t"⟩, ⟨"**", "10.0.0.1", "web.lan", "", "t"⟩] ∧
    (ReconcileDNS lan "t" webTwice (World.init
        (ReconcileDNS lan "t" webTwice (World.init [] starAlloc [])).1.zone starAlloc [])).1.log =
      [.GetRecord "name" "web.lan"
          [⟨"*", "10.0.0.1", "web.lan", "", "t"⟩, ⟨"**", "10.0.0.1", "web.lan", "", "t"⟩] none,
        .PutRecord webPut none,
        .GetRecord "comment" "t"
          [⟨"*", "10.0.0.1", "web.lan", "", "t"⟩, ⟨"**", "10.0.0.1", "web.lan", "", "t"⟩,
            ⟨"***", "10.0.0.1", "web.lan", "", "t"⟩] none,
        .DelRecord ⟨"*", "10.0.0.1", "web.lan", "", "t"⟩ (.ret none)] ∧
    (ReconcileDNS lan "t" webTwice (World.init
        (ReconcileDNS lan "t" webTwice (World.init [] starAlloc [])).1.zone starAlloc [])).1.zone =
      [⟨"**", "10.0.0.1", "web.lan", "", "t"⟩, ⟨"***", "10.0.0.1", "web.lan", "", "t"⟩] := by
  decide

/-- C5, the code at two failing inputs. The desired state lists `10.0.0.1` twice for
`web` and the store answers every call. With an empty zone the pass makes two
`PutRecord` calls for `(web.lan, 10.0.0.1)` and leaves two records with that name,
address and the tag. With a matching record in the zone the pass marks it, makes one
`PutRecord` call all the same, and leaves two such records. -/
theorem ReconcileDNS_duplicate_address_not_collapsed :
    (ReconcileDNS lan "t" webTwice (World.init [] starAlloc [])).2 = .ret none ∧
    (ReconcileDNS lan "t" webTwice (World.init [] starAlloc [])).1.log =
      [.GetRecord "name" "web.lan" [] none, .PutRecord webPut none, .PutRecord webPut none,
        .GetRecord "comment" "t"
          [⟨"*", "10.0.0.1", "web.lan", "", "t"⟩, ⟨"**", "10.0.0.1", "web.lan", "", "t"⟩] none] ∧
    ((ReconcileDNS lan "t" webTwice (World.init [] starAlloc [])).1.zone.filter
      (fun x => x.Name = "web.lan" ∧ x.Address = "10.0.0.1" ∧ x.Comment = "t")).length = 2 ∧
    (ReconcileDNS lan "t" webTwice (World.init [webA] starAlloc [])).2 = .ret none ∧
    (ReconcileDNS lan "t" webTwice (World.init [webA] starAlloc [])).1.log =
      [.GetRecord "name" "web.lan" [webA] none, .PutRecord webPut none,
        .GetRecord "comment" "t" [webA, ⟨"***", "10.0.0.1", "web.lan", "", "t"⟩] none] ∧
    ((ReconcileDNS lan "t" webTwice (World.init [webA] starAlloc [])).1.zone.filter
      (fun x => x.Name = "web.lan" ∧ x.Address = "10.0.0.1" ∧ x.Comment = "t")).length = 2 := by
  decide

/-- C8, the code at a failing input. The store answers the `DELETE` with `500`:
`DelRecord` returns nil and the record is still in the zone. In a pass with two stale
records whose deletions the store rejects (`500`, then `404`), `ReconcileDNS` calls
`DelRecord` for both, returns nil, and the zone is unchanged. When the transport fails,
`DelRecord` does not return at all: it panics. -/
theorem DelRecord_rejection_returns_nil :
    (DelRecord lan webA (World.init [webA] starAlloc [.status 500])).2 = .ret none ∧
    (DelRecord lan webA (World.init [webA] starAlloc [.status 500])).1.zone = [webA] ∧
    (ReconcileDNS lan "t" [] (World.init [webA, apiA] starAlloc
        [.none, .status 500, .status 404])).1.log =
      [.GetRecord "comment" "t" [webA, apiA] none, .DelRecord webA (.ret none),
        .DelRecord apiA (.ret none)] ∧
    (ReconcileDNS lan "t" [] (World.init [webA, apiA] starAlloc
        [.none, .status 500, .status 404])).2 = .ret none ∧
    (ReconcileDNS lan "t" [] (World.init [webA, apiA] starAlloc
        [.none, .status 500, .status 404])).1.zone = [webA, apiA] ∧
    (DelRecord lan webA (World.init [webA] starAlloc [.transport "timeout"])).2 = .panic := by
  decide

/-- C2 fails as stated. (a) The zone holds a record for `(web.lan, 10.0.0.1)` with
another comment and the store answers every call: `ReconcileDNS` returns nil and the zone
has no record with that name and address that carries the tag. (b) The zone holds the
tagged record, the transport fails on the lookup by name and the store refuses the
lookup by comment with `500`: `ReconcileDNS` returns nil and the zone has two such
records. -/
theorem ReconcileDNS_foreign_record_counterexample :
    (ReconcileDNS lan "t" webOnce (World.init [webForeign] starAlloc [])).2 = .ret none ∧
    ((ReconcileDNS lan "t" webOnce (World.init [webForeign] starAlloc [])).1.zone.filter
      (fun x => x.Name = lan.fqdn "web" ∧ x.Address = "10.0.0.1" ∧ x.Comment = "t")).length = 0 ∧
    (ReconcileDNS lan "t" webOnce (World.init [webA] starAlloc
      [.transport "timeout", .none, .status 500])).2 = .ret none ∧
    ((ReconcileDNS lan "t" webOnce (World.init [webA] starAlloc
        [.transport "timeout", .none, .status 500])).1.zone.filter
      (fun x => x.Name = lan.fqdn "web" ∧ x.Address = "10.0.0.1" ∧ x.Comment = "t")).length = 2 := by
  decide

/-- C3 fails as stated. (a) The zone holds two records for `(web.lan, 10.0.0.1)` with
the tag, the pair is desired, the store answers every call: `ReconcileDNS` returns nil
and the record listed first is gone. (b) The zone also holds a tagged record for
`api.lan`, which is not desired, and the store refuses the lookup by comment with `500`:
`ReconcileDNS` returns nil and that record is still in the zone. -/
theorem ReconcileDNS_earlier_duplicate_counterexample :
    (ReconcileDNS lan "t" webOnce (World.init [webA, webB] starAlloc [])).2 = .ret none ∧
    webA ∈ [webA, webB] ∧ webA.Comment = "t" ∧ Desired lan webOnce webA ∧
    webA ∉ (ReconcileDNS lan "t" webOnce (World.init [webA, webB] starAlloc [])).1.zone ∧
    (ReconcileDNS lan "t" webOnce (World.init [webA, apiA] starAlloc
      [.none, .status 500])).2 = .ret none ∧
    apiA ∈ [webA, apiA] ∧ apiA.Comment = "t" ∧ ¬ Desired lan webOnce apiA ∧
    apiA ∈ (ReconcileDNS lan "t" webOnce (World.init [webA, apiA] starAlloc
      [.none, .status 500])).1.zone := by
  decide

/-- C7 fails as stated: the transport fails on the lookup by name for `web`, and
`ReconcileDNS` goes on: it calls `PutRecord`, then `DelRecord`, and returns nil. -/
theorem ReconcileDNS_lookup_failure_counterexample :
    (ReconcileDNS lan "t" webOnce (World.init [webA] starAlloc [.transport "timeout"])).1.log =
      [.GetRecord "name" "web.lan" [] (some "timeout"), .PutRecord webPut none,
        .GetRecord "comment" "t" [webA, ⟨"***", "10.0.0.1", "web.lan", "", "t"⟩] none,
        .DelRecord webA (.ret none)] ∧
    (ReconcileDNS lan "t" webOnce (World.init [webA] starAlloc [.transport "timeout"])).2 =
      .ret none := by
  decide

/-! ## The theorems at concrete inputs -/

theorem ReconcileDNS_converges_witness :
    Fresh starAlloc ∧ UniqueIDs [webB, apiA, mailForeign] ∧
    ((ReconcileDNS lan "t" [("web", ["10.0.0.1", "10.0.0.7"])]
        (World.init [webB, apiA, mailForeign] starAlloc [])).1.zone.filter
      (fun x => x.Name = lan.fqdn "web" ∧ x.Address = "10.0.0.7" ∧ x.Comment = "t")).length = 1 :=
  ⟨starAlloc_fresh, by decide,
    (ReconcileDNS_converges lan "t" [("web", ["10.0.0.1", "10.0.0.7"])] [webB, apiA, mailForeign]
      starAlloc "web" "10.0.0.7" ["10.0.0.1", "10.0.0.7"] starAlloc_fresh (by decide) (by decide)
      (by decide) (by decide) (by decide)).2⟩

theorem ReconcileDNS_prunes_witness :
    Fresh starAlloc ∧ UniqueIDs [webA, webB, apiA] ∧
    apiA ∉ (ReconcileDNS lan "t" webOnce (World.init [webA, webB, apiA] starAlloc [])).1.zone ∧
    webB ∈ (ReconcileDNS lan "t" webOnce (World.init [webA, webB, apiA] starAlloc [])).1.zone :=
  ⟨starAlloc_fresh, by decide,
    (ReconcileDNS_prunes lan "t" webOnce [webA, webB, apiA] starAlloc starAlloc_fresh
      (by decide)).2.1 apiA (by decide) (by decide) (by decide),
    (ReconcileDNS_prunes lan "t" webOnce [webA, webB, apiA] starAlloc starAlloc_fresh
      (by decide)).2.2 webB (by decide) (by decide) (by decide)⟩

theorem ReconcileDNS_tag_isolation_witness :
    Fresh starAlloc ∧ UniqueIDs [webForeign, apiA, mailForeign] ∧
    (ReconcileDNS lan "t" webOnce (World.init [webForeign, apiA, mailForeign] starAlloc
        [.none, .garbled])).1.zone.filter (fun x => x.Comment ≠ "t") =
      [webForeign, apiA, mailForeign].filter (fun x => x.Comment ≠ "t") :=
  ⟨starAlloc_fresh, by decide,
    (ReconcileDNS_tag_isolation lan "t" webOnce [webForeign, apiA, mailForeign] starAlloc
      [.none, .garbled] starAlloc_fresh (by decide)).2.2⟩

theorem ReconcileDNS_put_failure_aborts_witness :
    Call.PutRecord webPut (some "Error creating record web.lan") ∈
      (ReconcileDNS lan "t" webOnce (World.init [apiA] starAlloc [.none, .status 500])).1.log ∧
    (ReconcileDNS lan "t" webOnce (World.init [apiA] starAlloc [.none, .status 500])).2 =
      .ret (some "Error creating record web.lan") :=
  ⟨by decide,
    (ReconcileDNS_put_failure_aborts lan "t" webOnce [apiA] starAlloc [.none, .status 500]
      webPut "Error creating record web.lan" (by decide)).1⟩

theorem ReconcileDNS_lookup_failure_ignored_witness :
    Call.GetRecord "comment" "t" [] (some "timeout") ∈
      (ReconcileDNS lan "t" [] (World.init [webA] starAlloc [.transport "timeout"])).1.log ∧
    (ReconcileDNS lan "t" [] (World.init [webA] starAlloc [.transport "timeout"])).2 = .ret none ∧
    (∃ e t, (ReconcileDNS lan "t" webOnce
        (World.init [webA] starAlloc [.transport "timeout"])).1.log =
      .GetRecord "name" (lan.fqdn "web") [] (some "timeout") ::
        .PutRecord ⟨"", "10.0.0.1", lan.fqdn "web", "", "t"⟩ e :: t) ∧
    (ReconcileDNS lan "t" [] (World.init [webA] starAlloc
      [.none, .redirect 302 "stopped after 10 redirects"])).2 =
      .ret (some "stopped after 10 redirects") ∧
    ∃ t rr, (ReconcileDNS lan "t" [] (World.init [webA] starAlloc
          [.none, .redirect 302 "stopped after 10 redirects"])).1.log =
        t ++ [.PutRecord rr (some "stopped after 10 redirects")] ∨
      (ReconcileDNS lan "t" [] (World.init [webA] starAlloc
          [.none, .redirect 302 "stopped after 10 redirects"])).1.log =
        t ++ [.DelRecord rr (.ret (some "stopped after 10 redirects"))] :=
  ⟨by decide,
    ((ReconcileDNS_lookup_failure_ignored lan "t" [] [webA] starAlloc
      [.transport "timeout"]).2.1 [] "timeout" (by decide)).2.1,
    (ReconcileDNS_lookup_failure_ignored lan "t" webOnce [webA] starAlloc
      [.transport "timeout"]).2.2 "web" "10.0.0.1" [] [] "timeout" [] rfl rfl,
    by decide,
    (ReconcileDNS_lookup_failure_ignored lan "t" [] [webA] starAlloc
      [.none, .redirect 302 "stopped after 10 redirects"]).1 "stopped after 10 redirects"
      (by decide)⟩

theorem ReconcileDNS_exact_convergence_witness :
    Fresh starAlloc ∧ UniqueIDs [webA, webB, apiA, mailForeign] ∧
    List.Perm
      (((ReconcileDNS lan "t" [("web", ["10.0.0.1", "10.0.0.7"])]
          (World.init [webA, webB, apiA, mailForeign] starAlloc [])).1.zone.filter
        (fun x => x.Comment = "t")).map (fun x => (x.Name, x.Address)))
      (desiredPairs lan [("web", ["10.0.0.1", "10.0.0.7"])]) :=
  ⟨starAlloc_fresh, by decide,
    (ReconcileDNS_exact_convergence lan "t" [("web", ["10.0.0.1", "10.0.0.7"])]
      [webA, webB, apiA, mailForeign] starAlloc starAlloc_fresh (by decide) (by decide)
      (by decide) (by decide)).2.1⟩

end routeros

namespace nomad

theorem filtered_foldl (tag : String) (tags : List String) (b : Bool) :
    tags.foldl (fun f t => if t = tag then false else f) b = (b && decide (tag ∉ tags)) := by
  induction tags generalizing b with
  | nil => simp
  | cons t rest ih =>
    rw [List.foldl_cons, ih]
    by_cases h : t = tag
    · subst h; simp
    · have h2 : ¬ tag = t := fun k => h k.symm
      simp [h, h2]

/-- A stub is filtered out exactly when the tag is not empty and is none of its tags. -/
theorem filtered_eq_false_iff (tag : String) (svcStub : ServiceRegistrationStub) :
    filtered tag svcStub.Tags = false ↔ included tag svcStub := by
  unfold filtered included
  rw [filtered_foldl]
  have hlen : tag.length = 0 ↔ tag = "" := by
    constructor
    · intro h
      apply String.ext
      exact List.length_eq_zero.1 h
    · intro h; rw [h]; rfl
  by_cases h1 : tag = ""
  · simp [h1]
  · have : ¬ tag.length = 0 := fun k => h1 (hlen.1 k)
    simp [h1, this]

theorem instanceLoop_apply (name : String) (res : List ServiceRegistration) :
    ∀ (out : GoMap (List String)) (s : String),
      ((instanceLoop name res out) s).getD [] =
        (out s).getD [] ++ (if name = s then res.map (fun i => i.Address) else []) := by
  induction res with
  | nil =>
    intro out s
    simp [instanceLoop]
  | cons i rest ih =>
    intro out s
    simp only [instanceLoop]
    rw [ih]
    unfold GoMap.insert
    by_cases h : name = s
    · subst h; simp
    · have h2 : ¬ s = name := fun k => h k.symm
      simp [h, h2]

theorem stubLoop_apply (c : Client) (tag ns : String)
    (insts : String → String → List ServiceRegistration)
    (stubs : List ServiceRegistrationStub) :
    ∀ (out : GoMap (List String)),
      (∀ svcStub ∈ stubs, included tag svcStub →
        c.ServicesGet svcStub.ServiceName ns = .ok (insts svcStub.ServiceName ns)) →
      ∃ out1, stubLoop c tag ns stubs out = .ok out1 ∧
        ∀ s, (out1 s).getD [] = (out s).getD [] ++
          stubs.flatMap (fun svcStub =>
            if included tag svcStub ∧ svcStub.ServiceName = s then
              (insts svcStub.ServiceName ns).map (fun i => i.Address)
            else []) := by
  induction stubs with
  | nil =>
    intro out _
    exact ⟨out, rfl, by simp⟩
  | cons st rest ih =>
    intro out hget
    have hrest : ∀ svcStub ∈ rest, included tag svcStub →
        c.ServicesGet svcStub.ServiceName ns = .ok (insts svcStub.ServiceName ns) :=
      fun x hx => hget x (List.mem_cons_of_mem _ hx)
    simp only [stubLoop]
    by_cases hf : filtered tag st.Tags = true
    · have hinc : ¬ included tag st := by
        intro k
        rw [(filtered_eq_false_iff tag st).2 k] at hf
        cases hf
      simp only [hf, if_true]
      obtain ⟨out1, h1, h2⟩ := ih out hrest
      refine ⟨out1, h1, ?_⟩
      intro s
      rw [h2 s, List.flatMap_cons]
      simp [hinc]
    · have hinc : included tag st := by
        apply (filtered_eq_false_iff tag st).1
        simpa using hf
      simp only [hf, if_false]
      rw [hget st (List.mem_cons_self _ _) hinc]
      simp only []
      obtain ⟨out1, h1, h2⟩ := ih (instanceLoop st.ServiceName (insts st.ServiceName ns) out) hrest
      refine ⟨out1, h1, ?_⟩
      intro s
      rw [h2 s, instanceLoop_apply, List.flatMap_cons, List.append_assoc]
      simp [hinc]

theorem listStubLoop_apply (c : Client) (tag ns : String)
    (insts : String → String → List ServiceRegistration)
    (svcs : List ServiceRegistrationListStub) :
    ∀ (out : GoMap (List String)),
      (∀ l ∈ svcs, ∀ svcStub ∈ l.Services, included tag svcStub →
        c.ServicesGet svcStub.ServiceName ns = .ok (insts svcStub.ServiceName ns)) →
      ∃ out1, listStubLoop c tag ns svcs out = .ok out1 ∧
        ∀ s, (out1 s).getD [] = (out s).getD [] ++
          svcs.flatMap (fun l => l.Services.flatMap (fun svcStub =>
            if included tag svcStub ∧ svcStub.ServiceName = s then
              (insts svcStub.ServiceName ns).map (fun i => i.Address)
            else [])) := by
  induction svcs with
  | nil =>
    intro out _
    exact ⟨out, rfl, by simp⟩
  | cons l rest ih =>
    intro out hget
    simp only [listStubLoop]
    obtain ⟨out1, h1, h2⟩ := stubLoop_apply c tag ns insts l.Services out
      (hget l (List.mem_cons_self _ _))
    rw [h1]
    simp only []
    obtain ⟨out2, k1, k2⟩ := ih out1 (fun x hx => hget x (List.mem_cons_of_mem _ hx))
    refine ⟨out2, k1, ?_⟩
    intro s
    rw [k2 s, h2 s, List.flatMap_cons, List.append_assoc]

theorem namespaceLoop_apply (c : Client) (tag : String)
    (svcs : String → List ServiceRegistrationListStub)
    (insts : String → String → List ServiceRegistration) (nss : List Namespace) :
    ∀ (out : GoMap (List String)),
      (∀ ns ∈ nss, c.ServicesList ns.Name = .ok (svcs ns.Name)) →
      (∀ ns ∈ nss, ∀ l ∈ svcs ns.Name, ∀ svcStub ∈ l.Services, included tag svcStub →
        c.ServicesGet svcStub.ServiceName ns.Name = .ok (insts svcStub.ServiceName ns.Name)) →
      ∃ out1, namespaceLoop c tag nss out = .ok out1 ∧
        ∀ s, (out1 s).getD [] = (out s).getD [] ++ accumulated tag nss svcs insts s := by
  induction nss with
  | nil =>
    intro out _ _
    exact ⟨out, rfl, by simp [accumulated]⟩
  | cons ns rest ih =>
    intro out hlist hget
    simp only [namespaceLoop]
    rw [hlist ns (List.mem_cons_self _ _)]
    simp only []
    obtain ⟨out1, h1, h2⟩ := listStubLoop_apply c tag ns.Name insts (svcs ns.Name) out
      (hget ns (List.mem_cons_self _ _))
    rw [h1]
    simp only []
    obtain ⟨out2, k1, k2⟩ := ih out1 (fun x hx => hlist x (List.mem_cons_of_mem _ hx))
      (fun x hx => hget x (List.mem_cons_of_mem _ hx))
    refine ⟨out2, k1, ?_⟩
    intro s
    rw [k2 s, h2 s, List.append_assoc]
    unfold accumulated
    rw [List.flatMap_cons]

/-- C9. `ListServices`, tag filter and accumulation: a service stub passes the filter
of the code exactly when the tag is the empty string or one of the tags of the stub;
and when the enumeration of the namespaces, the enumeration of the services of
each namespace and the lookup of the instances of each included stub succeed,
`ListServices` returns a map and no error, and the list under every service name `s` (empty when `s`
is not a key) is the concatenation, in enumeration order over namespaces, list stubs and
stubs, of the instance addresses of every included stub named `s`. -/
theorem ListServices_accumulates (c : Client) (tag : String) (nss : List Namespace)
    (svcs : String → List ServiceRegistrationListStub)
    (insts : String → String → List ServiceRegistration)
    (hns : c.NamespacesList = .ok nss)
    (hlist : ∀ ns ∈ nss, c.ServicesList ns.Name = .ok (svcs ns.Name))
    (hget : ∀ ns ∈ nss, ∀ l ∈ svcs ns.Name, ∀ svcStub ∈ l.Services, included tag svcStub →
      c.ServicesGet svcStub.ServiceName ns.Name = .ok (insts svcStub.ServiceName ns.Name)) :
    (∀ svcStub : ServiceRegistrationStub,
      filtered tag svcStub.Tags = false ↔ (tag = "" ∨ tag ∈ svcStub.Tags)) ∧
    ∃ out, ListServices c tag = .ok out ∧
      ∀ s, (out s).getD [] = accumulated tag nss svcs insts s := by
  refine ⟨fun svcStub => filtered_eq_false_iff tag svcStub, ?_⟩
  obtain ⟨out, h1, h2⟩ := namespaceLoop_apply c tag svcs insts nss GoMap.empty hlist hget
  refine ⟨out, ?_, ?_⟩
  · unfold ListServices
    rw [hns]
    exact h1
  · intro s
    rw [h2 s]
    simp [GoMap.empty]

theorem ListServices_accumulates_witness :
    demo.NamespacesList = .ok demoNamespaces ∧
    accumulated "dns" demoNamespaces demoServices demoInstances "web" =
      ["10.0.0.1", "10.0.1.1", "10.0.1.2"] ∧
    accumulated "dns" demoNamespaces demoServices demoInstances "db" = [] ∧
    ∃ out, ListServices demo "dns" = .ok out ∧
      ∀ s, (out s).getD [] = accumulated "dns" demoNamespaces demoServices demoInstances s :=
  ⟨rfl, by decide, by decide,
    (ListServices_accumulates demo "dns" demoNamespaces demoServices demoInstances rfl
      (fun _ _ => rfl) (fun _ _ _ _ _ _ _ => rfl)).2⟩

end nomad
